import Mathlib

/-!
# Set-associative LRU cache simulator (`cachesim.c`)

A shallow embedding of the cache simulation engine of `src/cachesim.c`:
address decoding, the per-set recency counters, victim selection, the
per-access procedure `access_cache`, and the bounds-checked backing store.

Conventions of the embedding.

* `uint32_t` values are natural numbers; where the C code computes in
  `unsigned int` arithmetic the reduction modulo `2 ^ 32` is written out.
* `int` geometry parameters (`sets`, `ways`, `block_size`) are natural
  numbers: every theorem states the positivity it needs.
* `int` values are integers in `[-2 ^ 31, 2 ^ 31)`.  Signed overflow is
  undefined in C; the embedding follows the compiled program, where the
  result wraps around (`int32_wrap`): `lru_counter++` takes `INT_MAX` to
  `INT_MIN`, and the products computed by `main` wrap as well.
* Where the C program has no defined behaviour left and dies as run (a
  `NULL` pointer is read, or `main_memory` is indexed outside its bounds),
  `access_cache` reports a fault and the record loop stops.
* The cache is the array `cache[0 .. sets * ways)`, a list of lines; line
  `(set_index, way)` lives at index `set_index * ways + way`.
* A C loop `for (i = 0; i < n; i++)` is a function of the number of
  iterations already executed, so that `loop n` is the state at loop exit.
-/

namespace CacheSim

/-! ## Constants and data model -/

/-- Size of the simulated main memory, `#define ADDRESS_SPACE_SIZE 16777216`. -/
def ADDRESS_SPACE_SIZE : Nat := 16777216

/-- Largest accepted cache size, `#define MAX_CACHE_SIZE 2097152`. -/
def MAX_CACHE_SIZE : Nat := 2097152

/-- Largest accepted block size, `#define MAX_BLOCK_SIZE 1024`. -/
def MAX_BLOCK_SIZE : Nat := 1024

/-- Modulus of `unsigned int` arithmetic. -/
def UINT32_MOD : Nat := 4294967296

/-- Largest value of an `int`. -/
def INT_MAX : Int := 2147483647

/-- Smallest value of an `int`. -/
def INT_MIN : Int := -2147483648

/-- The `int` left by a computation whose mathematical result is `x`:
two's-complement wrap-around into `[INT_MIN, INT_MAX]`. -/
def int32_wrap (x : Int) : Int := (x + 2147483648) % 4294967296 - 2147483648

/-- One line of the cache, `cache_line_t`. -/
structure cache_line_t where
  tag : Nat
  valid : Int
  lru_counter : Int
deriving DecidableEq, Repr, Inhabited

/-- The cache array `cache_line_t *cache`. -/
abbrev Cache := List cache_line_t

/-- The byte array `main_memory`, indexed by offset. -/
abbrev Memory := Nat → Nat

/-- Reading `cache[idx]`. -/
def line_at (cache : Cache) (idx : Nat) : cache_line_t :=
  cache.getD idx ⟨0, 0, 0⟩

/-! ## Address decoding -/

/-- The set index of an address: `(address / block_size) & (sets - 1)`, for
`sets ≥ 1` and `block_size ≥ 1` (with `sets = 0` the C mask is all ones and
with `block_size = 0` the division is undefined; no theorem below is about
those). -/
def get_set_index (address sets block_size : Nat) : Nat :=
  (address / block_size) &&& (sets - 1)

/-- The loop `while (temp >>= 1) ++bits;` started with `bits = 0`: the
number of times `temp` can be shifted right before it becomes zero.  The
first argument bounds the number of iterations. -/
def shift_count : Nat → Nat → Nat
  | 0, _ => 0
  | fuel + 1, temp => if temp >>> 1 = 0 then 0 else shift_count fuel (temp >>> 1) + 1

/-- The value of `offset_bits` / `index_bits` computed in `get_tag` for a
given `temp`; `temp` iterations always suffice. -/
def count_bits (temp : Nat) : Nat := shift_count temp temp

/-- The tag of an address: `address >> (offset_bits + index_bits)`. -/
def get_tag (address sets block_size : Nat) : Nat :=
  let offset_bits := count_bits block_size
  let index_bits := count_bits sets
  address >>> (offset_bits + index_bits)

/-! ## Recency counters and victim selection -/

/-- The loop of `update_lru_counters` after its first `n` iterations. -/
def update_lru_loop (cache : Cache) (set_index ways accessed_line : Nat) : Nat → Cache
  | 0 => cache
  | n + 1 =>
    let c := update_lru_loop cache set_index ways accessed_line n
    let idx := set_index * ways + n
    if idx = accessed_line then
      c.set idx { line_at c idx with lru_counter := 0 }
    else
      c.set idx { line_at c idx with lru_counter := int32_wrap ((line_at c idx).lru_counter + 1) }

/-- Resets the counter of `accessed_line` and increments (`lru_counter++`,
an `int`) the counter of every other line of the set; `accessed_line` is an
index into the cache array, as at both call sites. -/
def update_lru_counters (cache : Cache) (set_index ways accessed_line : Nat) : Cache :=
  update_lru_loop cache set_index ways accessed_line ways

/-- The pair `(lru_index, max_lru_counter)` of `find_least_recently_used`
after the loop has handled `i = 1, ..., n`. -/
def find_lru_loop (cache : Cache) (set_index ways : Nat) : Nat → Nat × Int
  | 0 => (set_index * ways, (line_at cache (set_index * ways)).lru_counter)
  | n + 1 =>
    let st := find_lru_loop cache set_index ways n
    let idx := set_index * ways + (n + 1)
    if (line_at cache idx).lru_counter > st.2 then
      (idx, (line_at cache idx).lru_counter)
    else st

/-- The index of the line that is replaced on a miss: the loop runs for
`i = 1, ..., ways - 1`. -/
def find_least_recently_used (cache : Cache) (set_index ways : Nat) : Nat :=
  (find_lru_loop cache set_index ways (ways - 1)).1

/-! ## Backing store -/

/-- Result of `read_memory`: `none` is the `NULL` returned after the message
"Memory read out of bounds"; otherwise the `size` bytes copied into the
result buffer.  The sum `address + size` and the index `address + i` are
computed in `unsigned int`. -/
def read_memory (mem : Memory) (address : Nat) (size : Int) : Option (List Nat) :=
  if (((address : Int) + size) % (UINT32_MOD : Int)).toNat > ADDRESS_SPACE_SIZE then none
  else some ((List.range size.toNat).map (fun i => mem ((address + i) % UINT32_MOD)))

/-- The loop of `write_memory` after its first `n` iterations. -/
def write_loop (mem : Memory) (address : Nat) (value : List Nat) : Nat → Memory
  | 0 => mem
  | n + 1 =>
    Function.update (write_loop mem address value n)
      ((address + n) % UINT32_MOD) (value.getD n 0 % 256)

/-- The memory after `write_memory`: unchanged when the bounds check
fires, otherwise `size` bytes of `value` are copied. -/
def write_memory (mem : Memory) (address : Nat) (value : List Nat) (size : Int) : Memory :=
  if (((address : Int) + size) % (UINT32_MOD : Int)).toNat > ADDRESS_SPACE_SIZE then mem
  else write_loop mem address value size.toNat

/-! ## One access -/

/-- The test `cache[idx].valid && cache[idx].tag == tag` of the lookup
loop. -/
def line_matches (cache : Cache) (idx tag : Nat) : Prop :=
  (line_at cache idx).valid ≠ 0 ∧ (line_at cache idx).tag = tag

instance (cache : Cache) (idx tag : Nat) : Decidable (line_matches cache idx tag) :=
  inferInstanceAs (Decidable (_ ∧ _))

/-- The lookup loop of `access_cache` after scanning ways `0, ..., n - 1`:
the index of the first valid line with a matching tag, if any (the loop
breaks there). -/
def lookup_loop (cache : Cache) (set_index ways tag : Nat) : Nat → Option Nat
  | 0 => none
  | n + 1 =>
    match lookup_loop cache set_index ways tag n with
    | some idx => some idx
    | none =>
      let idx := set_index * ways + n
      if line_matches cache idx tag then some idx else none

/-- What `access_cache` prints for one access, or how it fails. -/
inductive Report where
  /-- The line `store 0x... miss`. -/
  | store_miss : Report
  /-- The line `load 0x... hit|miss` followed by the bytes read; `data` is
  `none` when `read_memory` returned `NULL` and no byte was to be printed. -/
  | load (hit : Bool) (data : Option (List Nat)) : Report
  /-- Nothing: the access type is neither "store" nor "load". -/
  | silent : Report
  /-- The process dies in a load: `read_memory` returned `NULL` and the
  print loop reads `read_value[0]`, or `read_memory` indexed `main_memory`
  outside its bounds. -/
  | load_fault (hit : Bool) : Report
  /-- The process dies in a store: `write_memory` indexed `main_memory`
  outside its bounds. -/
  | store_fault : Report
deriving DecidableEq, Repr

/-- The access did not return. -/
def Report.is_fault : Report → Bool
  | Report.load_fault _ => true
  | Report.store_fault => true
  | _ => false

/-- Some index `address + i` with `0 ≤ i < size`, computed in
`unsigned int` as in the loops of `read_memory` and `write_memory`, lies
outside `main_memory`. -/
def outside_memory (address : Nat) (size : Int) : Bool :=
  (List.range size.toNat).any
    (fun i => decide (ADDRESS_SPACE_SIZE ≤ (address + i) % UINT32_MOD))

/-- The two print blocks of a load in `access_cache` (they are the same
for a hit and for a miss): `read_memory` is called and `access_size` bytes
of its result are printed.  Sizes above 8 overflow the 8-byte buffers and
are outside every theorem below. -/
def load_report (hit : Bool) (mem : Memory) (address : Nat) (access_size : Int) : Report :=
  match read_memory mem address access_size with
  | none => if 0 < access_size then Report.load_fault hit else Report.load hit none
  | some data =>
    if outside_memory address access_size then Report.load_fault hit
    else Report.load hit (some data)

/-- The store branch of `access_cache`: `write_memory` is called, then
`store 0x... miss` is printed.  When the bounds check of `write_memory`
fires nothing is written; when it does not and an index lies outside
`main_memory` the process dies before the line is printed. -/
def store_report (address : Nat) (access_size : Int) : Report :=
  if (((address : Int) + access_size) % (UINT32_MOD : Int)).toNat > ADDRESS_SPACE_SIZE then
    Report.store_miss
  else if outside_memory address access_size then Report.store_fault
  else Report.store_miss

/-- State after one access (at the point of the fault, if there is one)
together with what was printed. -/
structure AccessResult where
  cache : Cache
  memory : Memory
  report : Report

/-- One call of `access_cache`. -/
def access_cache (address : Nat) (access_type : String) (access_size : Int)
    (value : List Nat) (cache : Cache) (mem : Memory) (sets ways block_size : Nat) :
    AccessResult :=
  let set_index := get_set_index address sets block_size
  let tag := get_tag address sets block_size
  let found := lookup_loop cache set_index ways tag ways
  let hit := found.isSome
  let cache1 :=
    match found with
    | some idx => update_lru_counters cache set_index ways idx
    | none => cache
  if access_type = "store" then
    { cache := cache1, memory := write_memory mem address value access_size,
      report := store_report address access_size }
  else if access_type = "load" then
    if hit = false then
      let lru_index := find_least_recently_used cache1 set_index ways
      let cache2 := cache1.set lru_index { line_at cache1 lru_index with valid := 1 }
      let cache3 := cache2.set lru_index { line_at cache2 lru_index with tag := tag }
      let cache4 := update_lru_counters cache3 set_index ways lru_index
      { cache := cache4, memory := mem,
        report := load_report false mem address access_size }
    else
      { cache := cache1, memory := mem,
        report := load_report true mem address access_size }
  else
    { cache := cache1, memory := mem, report := Report.silent }

/-- The cache set up by `main`: every line invalid, tag 0, counter 0. -/
def init_cache (sets ways : Nat) : Cache :=
  List.replicate (sets * ways) ⟨0, 0, 0⟩

/-! ## The record loop and the configuration read by `main` -/

/-- One parsed line of the trace: the arguments that `process_trace_file`
hands to `access_cache`. -/
structure access_record where
  access_type : String
  address : Nat
  access_size : Int
  value : List Nat

/-- State at the end of the record loop and the lines printed, in order. -/
structure TraceResult where
  cache : Cache
  memory : Memory
  reports : List Report

/-- The loop of `process_trace_file` over the parsed records: each record
is passed to `access_cache` with the same cache, memory and geometry.  The
loop ends with the records, or with the first access that does not
return. -/
def process_records (sets ways block_size : Nat) :
    Cache → Memory → List access_record → TraceResult
  | cache, mem, [] => ⟨cache, mem, []⟩
  | cache, mem, r :: rs =>
    let res := access_cache r.address r.access_type r.access_size r.value cache mem
      sets ways block_size
    if res.report.is_fault then ⟨res.cache, res.memory, [res.report]⟩
    else
      let rest := process_records sets ways block_size res.cache res.memory rs
      ⟨rest.cache, rest.memory, res.report :: rest.reports⟩

/-- A load or store record of 1 to 8 bytes that stays inside the address
space. -/
def in_bounds_record (r : access_record) : Prop :=
  (r.access_type = "load" ∨ r.access_type = "store") ∧
  1 ≤ r.access_size ∧ r.access_size ≤ 8 ∧
  (r.address : Int) + r.access_size ≤ (ADDRESS_SPACE_SIZE : Int)

instance (r : access_record) : Decidable (in_bounds_record r) :=
  inferInstanceAs (Decidable (_ ∧ _ ∧ _ ∧ _))

/-- How `main` goes on after reading its arguments. -/
inductive ConfigOutcome where
  /-- The message "Invalid cache size or block size" and `return 1`. -/
  | rejected : ConfigOutcome
  /-- The divisor `associativity * block_size` is zero: the process dies. -/
  | division_by_zero : ConfigOutcome
  /-- The quotient `INT_MIN / -1` does not fit an `int`: the process dies. -/
  | division_overflow : ConfigOutcome
  /-- No check fired: `main` allocates `sets * associativity` lines and, when
  the allocation succeeds, processes the trace. -/
  | accepted (sets : Int) : ConfigOutcome
deriving DecidableEq, Repr

/-- Lines 39 to 48 of `main`, on the `int` values returned by `atoi`: the
size in kB is multiplied by 1024, the two maxima are checked, and `sets` is
derived by `int` division.  Both products are `int` products. -/
def main_config (cache_size_kb associativity block_size : Int) : ConfigOutcome :=
  let cache_size := int32_wrap (cache_size_kb * 1024)
  if cache_size > (MAX_CACHE_SIZE : Int) ∨ block_size > (MAX_BLOCK_SIZE : Int) then
    ConfigOutcome.rejected
  else
    let divisor := int32_wrap (associativity * block_size)
    if divisor = 0 then ConfigOutcome.division_by_zero
    else if cache_size = INT_MIN ∧ divisor = -1 then ConfigOutcome.division_overflow
    else ConfigOutcome.accepted (Int.tdiv cache_size divisor)

/-! ## Predicates used to state the invariants -/

/-- Invariant of the array behind the lookup: it has `sets * ways` lines
and two distinct valid lines of one set hold different tags. -/
def tags_inv (cache : Cache) (sets ways : Nat) : Prop :=
  cache.length = sets * ways ∧
  ∀ si i j, si < sets → i < ways → j < ways → i ≠ j →
    (line_at cache (si * ways + i)).valid ≠ 0 →
    (line_at cache (si * ways + j)).valid ≠ 0 →
    (line_at cache (si * ways + i)).tag ≠ (line_at cache (si * ways + j)).tag

/-- The array `cache2` is `cache` after way `w` of set `si` was touched and
left with tag `tg` and valid flag `vd`: that line has counter 0, the other
lines of the set have their counter incremented, nothing else changed. -/
def touch_rel (cache cache2 : Cache) (ways si w tg : Nat) (vd : Int) : Prop :=
  cache2.length = cache.length ∧
  (∀ j, (j < si * ways ∨ si * ways + ways ≤ j) → line_at cache2 j = line_at cache j) ∧
  line_at cache2 (si * ways + w) = ⟨tg, vd, 0⟩ ∧
  (∀ i, i < ways → i ≠ w →
    line_at cache2 (si * ways + i) =
      ⟨(line_at cache (si * ways + i)).tag, (line_at cache (si * ways + i)).valid,
        int32_wrap ((line_at cache (si * ways + i)).lru_counter + 1)⟩)

/-! ## Basic facts about the cache array -/

theorem line_at_set (cache : Cache) (i j : Nat) (x : cache_line_t) :
    line_at (cache.set i x) j = if i = j ∧ i < cache.length then x else line_at cache j := by
  unfold line_at
  simp only [List.getD_eq_getElem?_getD, List.getElem?_set]
  by_cases hij : i = j
  · subst hij
    by_cases hlt : i < cache.length
    · simp [hlt]
    · simp [hlt, List.getElem?_eq_none (Nat.le_of_not_lt hlt)]
  · simp [hij]

theorem length_update_lru_loop (cache : Cache) (s w a n : Nat) :
    (update_lru_loop cache s w a n).length = cache.length := by
  induction n with
  | zero => rfl
  | succ n ih =>
    simp only [update_lru_loop]
    split <;> simp [ih]

/-- The effect of the first `n` iterations of `update_lru_counters` on
each entry of the array. -/
theorem line_at_update_lru_loop (cache : Cache) (s w a n : Nat) :
    ∀ j, line_at (update_lru_loop cache s w a n) j =
      if s * w ≤ j ∧ j < s * w + n ∧ j < cache.length then
        (if j = a then ⟨(line_at cache j).tag, (line_at cache j).valid, 0⟩
         else ⟨(line_at cache j).tag, (line_at cache j).valid,
                int32_wrap ((line_at cache j).lru_counter + 1)⟩)
      else line_at cache j := by
  induction n with
  | zero =>
    intro j
    have hn : ¬ (s * w ≤ j ∧ j < s * w + 0 ∧ j < cache.length) := by omega
    rw [if_neg hn]
    rfl
  | succ n ih =>
    intro j
    have hlen := length_update_lru_loop cache s w a n
    have hprev : line_at (update_lru_loop cache s w a n) (s * w + n)
        = line_at cache (s * w + n) := by
      rw [ih, if_neg (by omega)]
    have hstep : line_at (update_lru_loop cache s w a (n + 1)) j =
        if s * w + n = j ∧ s * w + n < cache.length then
          (if s * w + n = a then
            ⟨(line_at cache (s * w + n)).tag, (line_at cache (s * w + n)).valid, 0⟩
           else ⟨(line_at cache (s * w + n)).tag, (line_at cache (s * w + n)).valid,
                  int32_wrap ((line_at cache (s * w + n)).lru_counter + 1)⟩)
        else line_at (update_lru_loop cache s w a n) j := by
      simp only [update_lru_loop]
      by_cases hja : s * w + n = a
      · rw [if_pos hja, if_pos hja, line_at_set, hlen, hprev]
      · rw [if_neg hja, if_neg hja, line_at_set, hlen, hprev]
    rw [hstep]
    by_cases h1 : s * w + n = j ∧ s * w + n < cache.length
    · obtain ⟨h1a, h1b⟩ := h1
      subst h1a
      have h3 : s * w ≤ s * w + n ∧ s * w + n < s * w + (n + 1) ∧
          s * w + n < cache.length := by omega
      rw [if_pos ⟨rfl, h1b⟩, if_pos h3]
    · rw [if_neg h1, ih]
      by_cases h2 : s * w ≤ j ∧ j < s * w + n ∧ j < cache.length
      · have h3 : s * w ≤ j ∧ j < s * w + (n + 1) ∧ j < cache.length := by omega
        rw [if_pos h2, if_pos h3]
      · have h3 : ¬ (s * w ≤ j ∧ j < s * w + (n + 1) ∧ j < cache.length) := by omega
        rw [if_neg h2, if_neg h3]

theorem length_update_lru_counters (cache : Cache) (s w a : Nat) :
    (update_lru_counters cache s w a).length = cache.length :=
  length_update_lru_loop cache s w a w

theorem line_at_update_lru_counters (cache : Cache) (s w a j : Nat) :
    line_at (update_lru_counters cache s w a) j =
      if s * w ≤ j ∧ j < s * w + w ∧ j < cache.length then
        (if j = a then ⟨(line_at cache j).tag, (line_at cache j).valid, 0⟩
         else ⟨(line_at cache j).tag, (line_at cache j).valid,
                int32_wrap ((line_at cache j).lru_counter + 1)⟩)
      else line_at cache j :=
  line_at_update_lru_loop cache s w a w j

theorem valid_update_lru_counters (cache : Cache) (s w a j : Nat) :
    (line_at (update_lru_counters cache s w a) j).valid = (line_at cache j).valid := by
  rw [line_at_update_lru_counters]
  split
  · split <;> rfl
  · rfl

theorem tag_update_lru_counters (cache : Cache) (s w a j : Nat) :
    (line_at (update_lru_counters cache s w a) j).tag = (line_at cache j).tag := by
  rw [line_at_update_lru_counters]
  split
  · split <;> rfl
  · rfl

/-- Two arrays of the same length with the same entries are equal. -/
theorem cache_ext (c1 c2 : Cache) (hlen : c1.length = c2.length)
    (h : ∀ j, line_at c1 j = line_at c2 j) : c1 = c2 := by
  apply List.ext_getElem hlen
  intro n h1 h2
  have := h n
  unfold line_at at this
  simpa [List.getD_eq_getElem?_getD, List.getElem?_eq_getElem h1,
    List.getElem?_eq_getElem h2] using this

/-- Loop invariant of `find_least_recently_used`: after handling ways
`1, ..., n` the pair holds a way `w ≤ n` of the set together with its
counter, no counter among ways `0, ..., n` is larger, and every way before
`w` has a strictly smaller counter. -/
theorem find_lru_loop_inv (cache : Cache) (s ways n : Nat) :
    ∃ w, w ≤ n ∧ (find_lru_loop cache s ways n).1 = s * ways + w ∧
      (find_lru_loop cache s ways n).2 = (line_at cache (s * ways + w)).lru_counter ∧
      (∀ i, i ≤ n → (line_at cache (s * ways + i)).lru_counter
          ≤ (line_at cache (s * ways + w)).lru_counter) ∧
      (∀ i, i < w → (line_at cache (s * ways + i)).lru_counter
          < (line_at cache (s * ways + w)).lru_counter) := by
  induction n with
  | zero =>
    refine ⟨0, Nat.le_refl 0, rfl, rfl, ?_, ?_⟩
    · intro i hi
      have : i = 0 := by omega
      subst this
      exact le_refl _
    · intro i hi
      omega
  | succ n ih =>
    obtain ⟨w, hwn, h1, h2, hmax, hfirst⟩ := ih
    by_cases hgt : (line_at cache (s * ways + (n + 1))).lru_counter
        > (find_lru_loop cache s ways n).2
    · refine ⟨n + 1, Nat.le_refl _, ?_, ?_, ?_, ?_⟩
      · simp only [find_lru_loop, if_pos hgt]
      · simp only [find_lru_loop, if_pos hgt]
      · intro i hi
        by_cases hin : i ≤ n
        · have := hmax i hin
          rw [h2] at hgt
          omega
        · have : i = n + 1 := by omega
          subst this
          exact le_refl _
      · intro i hi
        have := hmax i (by omega)
        rw [h2] at hgt
        omega
    · refine ⟨w, by omega, ?_, ?_, ?_, hfirst⟩
      · simp only [find_lru_loop, if_neg hgt]
        exact h1
      · simp only [find_lru_loop, if_neg hgt]
        exact h2
      · intro i hi
        by_cases hin : i ≤ n
        · exact hmax i hin
        · have : i = n + 1 := by omega
          subst this
          rw [h2] at hgt
          omega

/-- The victim is a line of the set it is chosen from. -/
theorem find_least_recently_used_in_set (cache : Cache) (s ways : Nat) (hways : 1 ≤ ways) :
    ∃ w, w < ways ∧ find_least_recently_used cache s ways = s * ways + w := by
  obtain ⟨w, hwn, h1, _⟩ := find_lru_loop_inv cache s ways (ways - 1)
  exact ⟨w, by omega, h1⟩

/-- The loop of `find_least_recently_used` reads nothing but counters. -/
theorem find_lru_loop_congr (cache1 cache2 : Cache) (s ways n : Nat)
    (h : ∀ j, (line_at cache2 j).lru_counter = (line_at cache1 j).lru_counter) :
    find_lru_loop cache2 s ways n = find_lru_loop cache1 s ways n := by
  induction n with
  | zero => simp only [find_lru_loop, h]
  | succ n ih => simp only [find_lru_loop, h, ih]

/-! ## The lookup loop and the two branches of `access_cache` -/

theorem lookup_loop_none_iff (cache : Cache) (s ways tag n : Nat) :
    lookup_loop cache s ways tag n = none ↔
      ∀ i, i < n → ¬ line_matches cache (s * ways + i) tag := by
  induction n with
  | zero => simp [lookup_loop]
  | succ n ih =>
    simp only [lookup_loop]
    cases hprev : lookup_loop cache s ways tag n with
    | some idx =>
      simp only [reduceCtorEq, false_iff]
      intro hall
      have hnone : lookup_loop cache s ways tag n = none :=
        ih.mpr (fun i hi => hall i (by omega))
      rw [hprev] at hnone
      exact Option.noConfusion hnone
    | none =>
      have hbefore := ih.mp hprev
      by_cases hm : line_matches cache (s * ways + n) tag
      · simp only [hm, if_true, reduceCtorEq, false_iff]
        intro hall
        exact hall n (by omega) hm
      · simp only [hm, if_false, true_iff]
        intro i hi
        by_cases hin : i < n
        · exact hbefore i hin
        · have : i = n := by omega
          subst this
          exact hm

theorem lookup_loop_some (cache : Cache) (s ways tag n idx : Nat)
    (h : lookup_loop cache s ways tag n = some idx) :
    ∃ i, i < n ∧ idx = s * ways + i ∧ line_matches cache (s * ways + i) tag ∧
      ∀ k, k < i → ¬ line_matches cache (s * ways + k) tag := by
  induction n with
  | zero => simp [lookup_loop] at h
  | succ n ih =>
    simp only [lookup_loop] at h
    cases hprev : lookup_loop cache s ways tag n with
    | some idx2 =>
      rw [hprev] at h
      simp only [Option.some.injEq] at h
      subst h
      obtain ⟨i, hi, h1, h2, h3⟩ := ih hprev
      exact ⟨i, by omega, h1, h2, h3⟩
    | none =>
      rw [hprev] at h
      by_cases hm : line_matches cache (s * ways + n) tag
      · simp only [hm, if_true, Option.some.injEq] at h
        exact ⟨n, by omega, h.symm, hm, (lookup_loop_none_iff cache s ways tag n).mp hprev⟩
      · simp only [hm, if_false, reduceCtorEq] at h

/-- The first matching way determines the result of the lookup loop. -/
theorem lookup_loop_first (cache : Cache) (s ways tag n i : Nat) (hi : i < n)
    (hm : line_matches cache (s * ways + i) tag)
    (hfirst : ∀ k, k < i → ¬ line_matches cache (s * ways + k) tag) :
    lookup_loop cache s ways tag n = some (s * ways + i) := by
  cases hl : lookup_loop cache s ways tag n with
  | none => exact absurd hm ((lookup_loop_none_iff cache s ways tag n).mp hl i hi)
  | some idx =>
    obtain ⟨i2, _, h1, h2, h3⟩ := lookup_loop_some cache s ways tag n idx hl
    have : i2 = i := by
      rcases Nat.lt_trichotomy i2 i with hlt | heq | hgt
      · exact absurd h2 (hfirst i2 hlt)
      · exact heq
      · exact absurd hm (h3 i hgt)
    subst this
    rw [h1]

/-- A store: the lookup loop runs (and updates the counters when it finds
the line), then the bytes are written. -/
theorem access_cache_store (address : Nat) (access_size : Int) (value : List Nat)
    (cache : Cache) (mem : Memory) (sets ways block_size : Nat) :
    access_cache address "store" access_size value cache mem sets ways block_size =
      { cache :=
          match lookup_loop cache (get_set_index address sets block_size) ways
              (get_tag address sets block_size) ways with
          | some idx =>
            update_lru_counters cache (get_set_index address sets block_size) ways idx
          | none => cache,
        memory := write_memory mem address value access_size,
        report := store_report address access_size } := by
  simp only [access_cache, if_true]

/-- A load that finds its line. -/
theorem access_cache_load_found (address : Nat) (access_size : Int) (value : List Nat)
    (cache : Cache) (mem : Memory) (sets ways block_size idx : Nat)
    (h : lookup_loop cache (get_set_index address sets block_size) ways
        (get_tag address sets block_size) ways = some idx) :
    access_cache address "load" access_size value cache mem sets ways block_size =
      { cache := update_lru_counters cache (get_set_index address sets block_size) ways idx,
        memory := mem,
        report := load_report true mem address access_size } := by
  have hne : ¬ ("load" = "store") := by decide
  simp only [access_cache, h, hne, if_false, if_true, Option.isSome_some, reduceCtorEq]

/-- A load that does not find its line. -/
theorem access_cache_load_not_found (address : Nat) (access_size : Int) (value : List Nat)
    (cache : Cache) (mem : Memory) (sets ways block_size : Nat)
    (h : lookup_loop cache (get_set_index address sets block_size) ways
        (get_tag address sets block_size) ways = none) :
    access_cache address "load" access_size value cache mem sets ways block_size =
      { cache :=
          update_lru_counters
            (cache.set
              (find_least_recently_used cache (get_set_index address sets block_size) ways)
              ⟨get_tag address sets block_size, 1,
                (line_at cache (find_least_recently_used cache
                  (get_set_index address sets block_size) ways)).lru_counter⟩)
            (get_set_index address sets block_size) ways
            (find_least_recently_used cache (get_set_index address sets block_size) ways),
        memory := mem,
        report := load_report false mem address access_size } := by
  have hne : ¬ ("load" = "store") := by decide
  simp only [access_cache, h, hne, if_false, if_true, Option.isSome_none, List.set_set,
    line_at_set]
  by_cases hlt : find_least_recently_used cache (get_set_index address sets block_size) ways
      < cache.length
  · simp [hlt]
  · have hle := Nat.le_of_not_lt hlt
    simp [hlt, List.set_eq_of_length_le hle]

/-- An access that stays inside the address space is served by
`read_memory`. -/
theorem read_memory_in_bounds (mem : Memory) (address : Nat) (size : Int)
    (hsize : 0 ≤ size) (hb : (address : Int) + size ≤ (ADDRESS_SPACE_SIZE : Int)) :
    read_memory mem address size
      = some ((List.range size.toNat).map (fun i => mem ((address + i) % UINT32_MOD))) := by
  unfold read_memory
  have hcond : ¬ ((((address : Int) + size) % (UINT32_MOD : Int)).toNat > ADDRESS_SPACE_SIZE) := by
    simp only [UINT32_MOD, ADDRESS_SPACE_SIZE, Nat.cast_ofNat] at *
    omega
  rw [if_neg hcond]

/-- An access that ends beyond the address space, without wrapping around
`2 ^ 32`, is refused by `read_memory`. -/
theorem read_memory_out_of_bounds (mem : Memory) (address : Nat) (size : Int)
    (hoob : (ADDRESS_SPACE_SIZE : Int) < (address : Int) + size)
    (hwrap : (address : Int) + size < (UINT32_MOD : Int)) :
    read_memory mem address size = none := by
  unfold read_memory
  have hcond : (((address : Int) + size) % (UINT32_MOD : Int)).toNat > ADDRESS_SPACE_SIZE := by
    simp only [UINT32_MOD, ADDRESS_SPACE_SIZE, Nat.cast_ofNat] at *
    omega
  rw [if_pos hcond]

/-- No index of an access that stays inside the address space lies outside
`main_memory`. -/
theorem outside_memory_in_bounds (address : Nat) (size : Int)
    (hb : (address : Int) + size ≤ (ADDRESS_SPACE_SIZE : Int)) :
    outside_memory address size = false := by
  unfold outside_memory
  rw [List.any_eq_false]
  intro i hi
  have hlt : i < size.toNat := List.mem_range.mp hi
  have hmod : (address + i) % UINT32_MOD = address + i := by
    apply Nat.mod_eq_of_lt
    simp only [UINT32_MOD, ADDRESS_SPACE_SIZE, Nat.cast_ofNat] at *
    omega
  rw [hmod]
  simp only [decide_eq_true_eq, not_le]
  simp only [ADDRESS_SPACE_SIZE, Nat.cast_ofNat] at *
  omega

/-- An in-bounds load prints its classification and the bytes read. -/
theorem load_report_in_bounds (hit : Bool) (mem : Memory) (address : Nat) (size : Int)
    (hsize : 0 ≤ size) (hb : (address : Int) + size ≤ (ADDRESS_SPACE_SIZE : Int)) :
    load_report hit mem address size
      = Report.load hit
          (some ((List.range size.toNat).map (fun i => mem ((address + i) % UINT32_MOD)))) := by
  unfold load_report
  rw [read_memory_in_bounds mem address size hsize hb]
  simp only [outside_memory_in_bounds address size hb]
  rfl

/-- A store whose `address + size` stays below `2 ^ 32` is reported as a
miss: either the bounds check fires or every index is inside the array. -/
theorem store_report_no_wrap (address : Nat) (size : Int) (hsize : 0 ≤ size)
    (hwrap : (address : Int) + size < (UINT32_MOD : Int)) :
    store_report address size = Report.store_miss := by
  unfold store_report
  by_cases hc : (((address : Int) + size) % (UINT32_MOD : Int)).toNat > ADDRESS_SPACE_SIZE
  · rw [if_pos hc]
  · rw [if_neg hc]
    have hb : (address : Int) + size ≤ (ADDRESS_SPACE_SIZE : Int) := by
      simp only [UINT32_MOD, ADDRESS_SPACE_SIZE, Nat.cast_ofNat] at *
      omega
    simp only [outside_memory_in_bounds address size hb]
    rfl

/-! ## Address decoding facts -/

theorem get_set_index_pow (address s block_size : Nat) :
    get_set_index address (2 ^ s) block_size = (address / block_size) % 2 ^ s := by
  unfold get_set_index
  exact Nat.and_pow_two_sub_one_eq_mod _ _

theorem get_set_index_lt_pow (address s block_size : Nat) :
    get_set_index address (2 ^ s) block_size < 2 ^ s := by
  rw [get_set_index_pow]
  exact Nat.mod_lt _ (Nat.pos_pow_of_pos s (by decide))

/-- More fuel than `temp` does not change the result of the shift loop:
the loop has always stopped by then. -/
theorem shift_count_fuel (fuel1 : Nat) :
    ∀ fuel2 temp, temp ≤ fuel1 → temp ≤ fuel2 →
      shift_count fuel1 temp = shift_count fuel2 temp := by
  induction fuel1 with
  | zero =>
    intro fuel2 temp h1 _
    have h0 : temp = 0 := by omega
    subst h0
    cases fuel2 with
    | zero => rfl
    | succ f => simp [shift_count]
  | succ f ih =>
    intro fuel2 temp h1 h2
    cases fuel2 with
    | zero =>
      have h0 : temp = 0 := by omega
      subst h0
      simp [shift_count]
    | succ g =>
      simp only [shift_count]
      by_cases hz : temp >>> 1 = 0
      · rw [if_pos hz, if_pos hz]
      · rw [if_neg hz, if_neg hz]
        have hdiv : temp >>> 1 = temp / 2 := by
          rw [Nat.shiftRight_eq_div_pow, Nat.pow_one]
        have hlt1 : temp >>> 1 ≤ f := by omega
        have hlt2 : temp >>> 1 ≤ g := by omega
        rw [ih g (temp >>> 1) hlt1 hlt2]

/-- The shift loop computes the exponent of a power of two. -/
theorem shift_count_pow (b : Nat) : ∀ fuel, b < fuel → shift_count fuel (2 ^ b) = b := by
  induction b with
  | zero =>
    intro fuel hf
    cases fuel with
    | zero => omega
    | succ f => simp [shift_count]
  | succ b ih =>
    intro fuel hf
    cases fuel with
    | zero => omega
    | succ f =>
      have hshift : (2 ^ (b + 1)) >>> 1 = 2 ^ b := by
        rw [Nat.shiftRight_eq_div_pow, Nat.pow_succ]
        simp
      have hne : ¬ ((2 : Nat) ^ b = 0) := Nat.pos_iff_ne_zero.mp (Nat.pos_pow_of_pos b (by decide))
      simp only [shift_count, hshift, if_neg hne]
      rw [ih f (by omega)]

theorem count_bits_pow (b : Nat) : count_bits (2 ^ b) = b :=
  shift_count_pow b (2 ^ b) (Nat.lt_two_pow b)

theorem get_tag_pow (address s b : Nat) :
    get_tag address (2 ^ s) (2 ^ b) = address >>> (b + s) := by
  simp only [get_tag, count_bits_pow]

/-- The mask `sets - 1` keeps the set index below `sets`, whether or not
`sets` is a power of two. -/
theorem get_set_index_lt (address sets block_size : Nat) (hsets : 1 ≤ sets) :
    get_set_index address sets block_size < sets := by
  unfold get_set_index
  have h := @Nat.and_le_right (address / block_size) (sets - 1)
  omega

/-- Every line of a set with index below `sets` lies inside an array of
`sets * ways` lines. -/
theorem set_line_lt (set_index sets ways w : Nat) (hs : set_index < sets) (hw : w < ways) :
    set_index * ways + w < sets * ways := by
  have h1 : (set_index + 1) * ways ≤ sets * ways := Nat.mul_le_mul_right ways hs
  have h2 : (set_index + 1) * ways = set_index * ways + ways := by ring
  omega


/-! ## Claims -/

/-- While no counter of the set is at `INT_MAX`, `update_lru_counters`
called with the index of way `w` sets the counter of line `w` to 0 and adds
exactly 1 to the counter of every other line of the set. -/
theorem update_lru_counters_below_max (cache : Cache) (set_index ways w : Nat)
    (hw : w < ways) (hlen : set_index * ways + ways ≤ cache.length)
    (hmin : ∀ i, i < ways → INT_MIN ≤ (line_at cache (set_index * ways + i)).lru_counter)
    (hmax : ∀ i, i < ways → (line_at cache (set_index * ways + i)).lru_counter < INT_MAX) :
    (line_at (update_lru_counters cache set_index ways (set_index * ways + w))
        (set_index * ways + w)).lru_counter = 0 ∧
    (∀ i, i < ways → i ≠ w →
      (line_at (update_lru_counters cache set_index ways (set_index * ways + w))
          (set_index * ways + i)).lru_counter
        = (line_at cache (set_index * ways + i)).lru_counter + 1) := by
  refine ⟨?_, ?_⟩
  · have h : set_index * ways ≤ set_index * ways + w ∧
        set_index * ways + w < set_index * ways + ways ∧
        set_index * ways + w < cache.length := by omega
    rw [line_at_update_lru_counters, if_pos h, if_pos rfl]
  · intro i hi hne
    have h : set_index * ways ≤ set_index * ways + i ∧
        set_index * ways + i < set_index * ways + ways ∧
        set_index * ways + i < cache.length := by omega
    have h2 : ¬ (set_index * ways + i = set_index * ways + w) := by omega
    rw [line_at_update_lru_counters, if_pos h, if_neg h2]
    have h3 := hmin i hi
    have h4 := hmax i hi
    show int32_wrap ((line_at cache (set_index * ways + i)).lru_counter + 1)
      = (line_at cache (set_index * ways + i)).lru_counter + 1
    unfold int32_wrap
    simp only [INT_MIN, INT_MAX] at h3 h4
    omega

/-- C4, at the failing input: in a set of two lines whose way 1 has counter
`INT_MAX` (the state after 2147483647 touches of way 0),
`update_lru_counters` for way 0 leaves way 1 with counter `INT_MIN`: the
increment overflows, and the counter is not the old counter plus 1. -/
theorem update_lru_counters_overflow :
    update_lru_counters [⟨0, 1, 0⟩, ⟨0, 0, 2147483647⟩] 0 2 (0 * 2 + 0)
      = [⟨0, 1, 0⟩, ⟨0, 0, -2147483648⟩] ∧
    (line_at (update_lru_counters [⟨0, 1, 0⟩, ⟨0, 0, 2147483647⟩] 0 2 (0 * 2 + 0))
        (0 * 2 + 1)).lru_counter
      ≠ (line_at [⟨0, 1, 0⟩, ⟨0, 0, 2147483647⟩] (0 * 2 + 1)).lru_counter + 1 := by
  decide

/-- C3: for a set with at least one way, `find_least_recently_used` returns
the index of a way `w` of that set whose counter is the maximum over the
set, every way before `w` has a strictly smaller counter (lowest index among
the maxima), and the result is the same for any cache with the same
counters, whatever its valid flags and tags. -/
theorem find_least_recently_used_spec (cache : Cache) (set_index ways : Nat)
    (hways : 1 ≤ ways) :
    (∃ w, w < ways ∧
      find_least_recently_used cache set_index ways = set_index * ways + w ∧
      (∀ i, i < ways → (line_at cache (set_index * ways + i)).lru_counter
          ≤ (line_at cache (set_index * ways + w)).lru_counter) ∧
      (∀ i, i < w → (line_at cache (set_index * ways + i)).lru_counter
          < (line_at cache (set_index * ways + w)).lru_counter)) ∧
    (∀ cache2 : Cache,
      (∀ j, (line_at cache2 j).lru_counter = (line_at cache j).lru_counter) →
      find_least_recently_used cache2 set_index ways
        = find_least_recently_used cache set_index ways) := by
  constructor
  · obtain ⟨w, hwn, h1, _, hmax, hfirst⟩ := find_lru_loop_inv cache set_index ways (ways - 1)
    refine ⟨w, by omega, h1, ?_, hfirst⟩
    intro i hi
    exact hmax i (by omega)
  · intro cache2 h
    unfold find_least_recently_used
    rw [find_lru_loop_congr cache cache2 set_index ways (ways - 1) h]

/-- Witness for C3: in a set with counters 2, 5, 5 the victim is way 1. -/
theorem find_least_recently_used_spec_witness :
    ∃ w, w < 3 ∧
      find_least_recently_used [⟨0, 1, 2⟩, ⟨1, 0, 5⟩, ⟨2, 1, 5⟩] 0 3 = 0 * 3 + w ∧
      (∀ i, i < 3 → (line_at [⟨0, 1, 2⟩, ⟨1, 0, 5⟩, ⟨2, 1, 5⟩] (0 * 3 + i)).lru_counter
          ≤ (line_at [⟨0, 1, 2⟩, ⟨1, 0, 5⟩, ⟨2, 1, 5⟩] (0 * 3 + w)).lru_counter) ∧
      (∀ i, i < w → (line_at [⟨0, 1, 2⟩, ⟨1, 0, 5⟩, ⟨2, 1, 5⟩] (0 * 3 + i)).lru_counter
          < (line_at [⟨0, 1, 2⟩, ⟨1, 0, 5⟩, ⟨2, 1, 5⟩] (0 * 3 + w)).lru_counter) :=
  (find_least_recently_used_spec [⟨0, 1, 2⟩, ⟨1, 0, 5⟩, ⟨2, 1, 5⟩] 0 3 (by decide)).1


/-- C1: in a geometry whose `sets` and `block_size` are powers of two, an
in-bounds load is reported with the bytes read and classified as a hit
exactly when some line of the addressed set is valid and holds the tag of
the address before the access; otherwise it is classified as a miss. -/
theorem access_cache_load_hit_iff (address : Nat) (access_size : Int) (value : List Nat)
    (cache : Cache) (mem : Memory) (sets ways block_size s b : Nat)
    (hsets : sets = 2 ^ s) (hblock : block_size = 2 ^ b)
    (hlen : cache.length = sets * ways)
    (hsize : 1 ≤ access_size ∧ access_size ≤ 8)
    (hb : (address : Int) + access_size ≤ (ADDRESS_SPACE_SIZE : Int)) :
    ∃ hit data,
      (access_cache address "load" access_size value cache mem sets ways block_size).report
        = Report.load hit (some data) ∧
      read_memory mem address access_size = some data ∧
      (hit = true ↔
        ∃ i, i < ways ∧
          line_matches cache (get_set_index address sets block_size * ways + i)
            (get_tag address sets block_size)) := by
  have hread := read_memory_in_bounds mem address access_size (by omega) hb
  cases hl : lookup_loop cache (get_set_index address sets block_size) ways
      (get_tag address sets block_size) ways with
  | some idx =>
    refine ⟨true, _, ?_, hread, ?_⟩
    · rw [access_cache_load_found _ _ _ _ _ _ _ _ idx hl,
        load_report_in_bounds true mem address access_size (by omega) hb]
    · obtain ⟨i, hi, _, hm, _⟩ := lookup_loop_some _ _ _ _ _ _ hl
      exact ⟨fun _ => ⟨i, hi, hm⟩, fun _ => rfl⟩
  | none =>
    refine ⟨false, _, ?_, hread, ?_⟩
    · rw [access_cache_load_not_found _ _ _ _ _ _ _ _ hl,
        load_report_in_bounds false mem address access_size (by omega) hb]
    · constructor
      · intro h
        exact absurd h (by decide)
      · rintro ⟨i, hi, hm⟩
        exact absurd hm ((lookup_loop_none_iff _ _ _ _ _).mp hl i hi)

/-- Witness for C1: a load of address 4 in a one-set, two-way cache with
blocks of 4 bytes whose way 1 holds tag 1. -/
theorem access_cache_load_hit_iff_witness :
    ∃ hit data,
      (access_cache 4 "load" 4 [] [⟨0, 1, 1⟩, ⟨1, 1, 0⟩] (fun _ => 0) 1 2 4).report
        = Report.load hit (some data) ∧
      read_memory (fun _ => 0) 4 4 = some data ∧
      (hit = true ↔
        ∃ i, i < 2 ∧
          line_matches [⟨0, 1, 1⟩, ⟨1, 1, 0⟩] (get_set_index 4 1 4 * 2 + i) (get_tag 4 1 4)) :=
  access_cache_load_hit_iff 4 4 [] [⟨0, 1, 1⟩, ⟨1, 1, 0⟩] (fun _ => 0) 1 2 4 0 2
    (by decide) (by decide) (by decide) (by decide) (by decide)

/-- C2: an in-bounds load that is reported as a miss leaves the cache in the
state obtained by taking `v = find_least_recently_used`, making line `v`
valid with the tag of the address, and applying `update_lru_counters` for
`v`.  Line `v` is a line of the addressed set and ends valid, with the tag
and counter 0; every other line keeps its valid flag and tag; every line
outside the addressed set is unchanged. -/
theorem access_cache_load_miss_state (address : Nat) (access_size : Int) (value : List Nat)
    (cache : Cache) (mem : Memory) (sets ways block_size s b : Nat)
    (hsets : sets = 2 ^ s) (hblock : block_size = 2 ^ b) (hways : 1 ≤ ways)
    (hlen : cache.length = sets * ways)
    (hsize : 1 ≤ access_size ∧ access_size ≤ 8)
    (hb : (address : Int) + access_size ≤ (ADDRESS_SPACE_SIZE : Int))
    (hmiss : ∃ data,
      (access_cache address "load" access_size value cache mem sets ways block_size).report
        = Report.load false data) :
    (access_cache address "load" access_size value cache mem sets ways block_size).cache
      = update_lru_counters
          (cache.set
            (find_least_recently_used cache (get_set_index address sets block_size) ways)
            ⟨get_tag address sets block_size, 1,
              (line_at cache (find_least_recently_used cache
                (get_set_index address sets block_size) ways)).lru_counter⟩)
          (get_set_index address sets block_size) ways
          (find_least_recently_used cache (get_set_index address sets block_size) ways) ∧
    (∃ w, w < ways ∧
      find_least_recently_used cache (get_set_index address sets block_size) ways
        = get_set_index address sets block_size * ways + w) ∧
    line_at
        (access_cache address "load" access_size value cache mem sets ways block_size).cache
        (find_least_recently_used cache (get_set_index address sets block_size) ways)
      = ⟨get_tag address sets block_size, 1, 0⟩ ∧
    (∀ j, j ≠ find_least_recently_used cache (get_set_index address sets block_size) ways →
      (line_at
          (access_cache address "load" access_size value cache mem sets ways block_size).cache
          j).valid = (line_at cache j).valid ∧
      (line_at
          (access_cache address "load" access_size value cache mem sets ways block_size).cache
          j).tag = (line_at cache j).tag) ∧
    (∀ j, (j < get_set_index address sets block_size * ways ∨
          get_set_index address sets block_size * ways + ways ≤ j) →
      line_at
          (access_cache address "load" access_size value cache mem sets ways block_size).cache
          j = line_at cache j) := by
  have hl : lookup_loop cache (get_set_index address sets block_size) ways
      (get_tag address sets block_size) ways = none := by
    cases hl : lookup_loop cache (get_set_index address sets block_size) ways
        (get_tag address sets block_size) ways with
    | none => rfl
    | some idx =>
      obtain ⟨data, hd⟩ := hmiss
      rw [access_cache_load_found _ _ _ _ _ _ _ _ idx hl,
        load_report_in_bounds true mem address access_size (by omega) hb] at hd
      simp at hd
  obtain ⟨w, hw, hv⟩ :=
    find_least_recently_used_in_set cache (get_set_index address sets block_size) ways hways
  have hset : get_set_index address sets block_size < sets := by
    rw [hsets]
    exact get_set_index_lt_pow address s block_size
  have hvlt : find_least_recently_used cache (get_set_index address sets block_size) ways
      < cache.length := by
    rw [hv, hlen]
    exact set_line_lt _ _ _ _ hset hw
  rw [access_cache_load_not_found _ _ _ _ _ _ _ _ hl]
  generalize get_set_index address sets block_size = si at *
  generalize get_tag address sets block_size = tg at *
  generalize find_least_recently_used cache si ways = v at *
  refine ⟨rfl, ⟨w, hw, hv⟩, ?_, ?_, ?_⟩
  · have hc : si * ways ≤ v ∧ v < si * ways + ways ∧
        v < (cache.set v ⟨tg, 1, (line_at cache v).lru_counter⟩).length := by
      rw [List.length_set]
      omega
    rw [line_at_update_lru_counters, if_pos hc, if_pos rfl, line_at_set,
      if_pos ⟨rfl, hvlt⟩]
  · intro j hj
    rw [valid_update_lru_counters, tag_update_lru_counters, line_at_set,
      if_neg (fun h => hj h.1.symm)]
    exact ⟨rfl, rfl⟩
  · intro j hj
    have hc : ¬ (si * ways ≤ j ∧ j < si * ways + ways ∧
        j < (cache.set v ⟨tg, 1, (line_at cache v).lru_counter⟩).length) := by
      omega
    have hjv : ¬ (v = j ∧ v < cache.length) := by omega
    rw [line_at_update_lru_counters, if_neg hc, line_at_set, if_neg hjv]

/-- Witness for C2: the first load of an empty one-set, two-way cache. -/
theorem access_cache_load_miss_state_witness :
    (access_cache 0 "load" 4 [] (init_cache 1 2) (fun _ => 0) 1 2 4).cache
      = update_lru_counters
          ((init_cache 1 2).set
            (find_least_recently_used (init_cache 1 2) (get_set_index 0 1 4) 2)
            ⟨get_tag 0 1 4, 1,
              (line_at (init_cache 1 2) (find_least_recently_used (init_cache 1 2)
                (get_set_index 0 1 4) 2)).lru_counter⟩)
          (get_set_index 0 1 4) 2
          (find_least_recently_used (init_cache 1 2) (get_set_index 0 1 4) 2) :=
  (access_cache_load_miss_state 0 4 [] (init_cache 1 2) (fun _ => 0) 1 2 4 0 2
    (by decide) (by decide) (by decide) (by decide) (by decide) (by decide)
    ⟨some [0, 0, 0, 0], by decide⟩).1


/-- C5, as stated, fails: in a one-set, two-way cache whose way 0 is valid
with tag 0 and counter 1, a store to address 0 finds the line and runs
`update_lru_counters`, so the recency counters of both lines change. -/
theorem store_changes_counters_counterexample :
    (access_cache 0 "store" 4 [1, 2, 3, 4] [⟨0, 1, 1⟩, ⟨1, 1, 0⟩] (fun _ => 0) 1 2 4).cache
      = [⟨0, 1, 0⟩, ⟨1, 1, 1⟩] ∧
    (access_cache 0 "store" 4 [1, 2, 3, 4] [⟨0, 1, 1⟩, ⟨1, 1, 0⟩] (fun _ => 0) 1 2 4).cache
      ≠ [⟨0, 1, 1⟩, ⟨1, 1, 0⟩] := by
  decide

/-- C5 amended: in a geometry with at least one set, one way and one byte
per block, on a cache of `sets * ways` lines, a store of 1 to 8 bytes with
`address + size < 2 ^ 32` never allocates or evicts (every valid flag and
tag is kept).  When no valid line of the addressed set holds the tag, the
whole cache state is unchanged; when some line does, the state after the
store is `update_lru_counters` applied for the first such line, that is, the
store promotes the line it finds. -/
theorem access_cache_store_state (address : Nat) (access_size : Int) (value : List Nat)
    (cache : Cache) (mem : Memory) (sets ways block_size : Nat)
    (hsets : 1 ≤ sets) (hways : 1 ≤ ways) (hblock : 1 ≤ block_size)
    (hlen : cache.length = sets * ways)
    (hsize : 1 ≤ access_size ∧ access_size ≤ 8)
    (hwrap : (address : Int) + access_size < (UINT32_MOD : Int)) :
    (∀ j,
      (line_at
          (access_cache address "store" access_size value cache mem sets ways block_size).cache
          j).valid = (line_at cache j).valid ∧
      (line_at
          (access_cache address "store" access_size value cache mem sets ways block_size).cache
          j).tag = (line_at cache j).tag) ∧
    ((∀ i, i < ways →
        ¬ line_matches cache (get_set_index address sets block_size * ways + i)
            (get_tag address sets block_size)) →
      (access_cache address "store" access_size value cache mem sets ways block_size).cache
        = cache) ∧
    (∀ i, i < ways →
      line_matches cache (get_set_index address sets block_size * ways + i)
        (get_tag address sets block_size) →
      (∀ k, k < i →
        ¬ line_matches cache (get_set_index address sets block_size * ways + k)
            (get_tag address sets block_size)) →
      (access_cache address "store" access_size value cache mem sets ways block_size).cache
        = update_lru_counters cache (get_set_index address sets block_size) ways
            (get_set_index address sets block_size * ways + i)) := by
  rw [access_cache_store]
  refine ⟨?_, ?_, ?_⟩
  · intro j
    cases lookup_loop cache (get_set_index address sets block_size) ways
        (get_tag address sets block_size) ways with
    | none => exact ⟨rfl, rfl⟩
    | some idx => exact ⟨valid_update_lru_counters _ _ _ _ _, tag_update_lru_counters _ _ _ _ _⟩
  · intro hnone
    rw [(lookup_loop_none_iff _ _ _ _ _).mpr hnone]
  · intro i hi hm hfirst
    rw [lookup_loop_first _ _ _ _ _ i hi hm hfirst]

/-- Witness for C5 amended: the store of the counterexample promotes way 0,
and a store whose tag is absent leaves the state alone. -/
theorem access_cache_store_state_witness :
    (access_cache 0 "store" 4 [1, 2, 3, 4] [⟨0, 1, 1⟩, ⟨1, 1, 0⟩] (fun _ => 0) 1 2 4).cache
      = update_lru_counters [⟨0, 1, 1⟩, ⟨1, 1, 0⟩] (get_set_index 0 1 4) 2
          (get_set_index 0 1 4 * 2 + 0) ∧
    (access_cache 8 "store" 4 [1, 2, 3, 4] [⟨0, 1, 1⟩, ⟨1, 1, 0⟩] (fun _ => 0) 1 2 4).cache
      = [⟨0, 1, 1⟩, ⟨1, 1, 0⟩] :=
  ⟨(access_cache_store_state 0 4 [1, 2, 3, 4] [⟨0, 1, 1⟩, ⟨1, 1, 0⟩] (fun _ => 0) 1 2 4
      (by decide) (by decide) (by decide) (by decide) (by decide) (by decide)).2.2 0
      (by decide) (by decide) (by decide),
   (access_cache_store_state 8 4 [1, 2, 3, 4] [⟨0, 1, 1⟩, ⟨1, 1, 0⟩] (fun _ => 0) 1 2 4
      (by decide) (by decide) (by decide) (by decide) (by decide) (by decide)).2.1
      (by decide)⟩

/-- A store of 1 to 8 bytes with `address + size < 2 ^ 32` is reported as a
miss and keeps the number of lines and every valid flag and tag. -/
theorem access_cache_store_no_wrap (address : Nat) (access_size : Int)
    (value : List Nat) (cache : Cache) (mem : Memory) (sets ways block_size : Nat)
    (hsize : 1 ≤ access_size ∧ access_size ≤ 8)
    (hwrap : (address : Int) + access_size < (UINT32_MOD : Int)) :
    (access_cache address "store" access_size value cache mem sets ways block_size).report
      = Report.store_miss ∧
    (access_cache address "store" access_size value cache mem sets ways block_size).cache.length
      = cache.length ∧
    (∀ j,
      (line_at
          (access_cache address "store" access_size value cache mem sets ways block_size).cache
          j).valid = (line_at cache j).valid ∧
      (line_at
          (access_cache address "store" access_size value cache mem sets ways block_size).cache
          j).tag = (line_at cache j).tag) := by
  rw [access_cache_store]
  have hrep := store_report_no_wrap address access_size (by omega) hwrap
  cases lookup_loop cache (get_set_index address sets block_size) ways
      (get_tag address sets block_size) ways with
  | none => exact ⟨hrep, rfl, fun _ => ⟨rfl, rfl⟩⟩
  | some idx =>
    exact ⟨hrep, length_update_lru_counters _ _ _ _,
      fun _ => ⟨valid_update_lru_counters _ _ _ _ _, tag_update_lru_counters _ _ _ _ _⟩⟩

/-- C6, at the failing input: with 1 set, 2 ways and blocks of 512 bytes
(1 kB of cache), the record `store 0xffffffff` of 2 bytes is not reported
as a miss.  The sum `address + size` wraps to 1, the bounds check of
`write_memory` does not fire, the loop stores at `main_memory[0xFFFFFFFF]`,
outside the array, and the process dies before `store ... miss` is printed;
the records that follow are not processed. -/
theorem store_wraps_around_fault :
    (access_cache 4294967295 "store" 2 [1, 2] (init_cache 1 2) (fun _ => 0) 1 2 512).report
      = Report.store_fault ∧
    (access_cache 4294967295 "store" 2 [1, 2] (init_cache 1 2) (fun _ => 0) 1 2 512).report
      ≠ Report.store_miss ∧
    (process_records 1 2 512 (init_cache 1 2) (fun _ => 0)
        [⟨"store", 4294967295, 2, [1, 2]⟩, ⟨"store", 0, 2, [1, 2]⟩]).reports
      = [Report.store_fault] := by
  decide

/-- C7, at the failing input: with 1 set, 2 ways and blocks of 512 bytes,
`load 0xFFFFFE` of 4 bytes on the empty cache.  `read_memory` returns
`NULL`, but by then way 0 has been filled with the tag of the address and
the counter of way 1 incremented; the print loop then reads the `NULL`
pointer and the process dies, so the records that follow are not processed.
A store to the same address survives: `write_memory` returns and the store
is reported as a miss. -/
theorem out_of_bounds_load_fault :
    read_memory (fun _ => 0) 16777214 4 = none ∧
    (access_cache 16777214 "load" 4 [] (init_cache 1 2) (fun _ => 0) 1 2 512).report
      = Report.load_fault false ∧
    (access_cache 16777214 "load" 4 [] (init_cache 1 2) (fun _ => 0) 1 2 512).cache
      = [⟨32767, 1, 0⟩, ⟨0, 0, 1⟩] ∧
    (access_cache 16777214 "load" 4 [] (init_cache 1 2) (fun _ => 0) 1 2 512).cache
      ≠ init_cache 1 2 ∧
    (process_records 1 2 512 (init_cache 1 2) (fun _ => 0)
        [⟨"load", 16777214, 4, []⟩, ⟨"load", 0, 4, []⟩]).reports
      = [Report.load_fault false] ∧
    (access_cache 16777214 "store" 4 [1, 2, 3, 4] (init_cache 1 2) (fun _ => 0) 1 2 512).report
      = Report.store_miss := by
  decide

/-- C9: for a 32-bit address, a block size of at least 1 and a number of
sets that is a power of two, `get_set_index` is `(address / block_size) mod
sets`, and so lies in `[0, sets)`. -/
theorem get_set_index_eq_mod (address sets block_size s : Nat)
    (haddr : address < UINT32_MOD) (hblock : 1 ≤ block_size) (hsets : sets = 2 ^ s) :
    get_set_index address sets block_size = (address / block_size) % sets ∧
    get_set_index address sets block_size < sets := by
  subst hsets
  exact ⟨get_set_index_pow address s block_size, get_set_index_lt_pow address s block_size⟩

/-- Witness for C9: address `0x1234` with 8 sets and blocks of 16 bytes. -/
theorem get_set_index_eq_mod_witness :
    get_set_index 4660 8 16 = (4660 / 16) % 8 ∧ get_set_index 4660 8 16 < 8 :=
  get_set_index_eq_mod 4660 8 16 3 (by decide) (by decide) (by decide)

/-- C8: for a 32-bit address and a geometry with `block_size = 2 ^ b`,
`sets = 2 ^ s`, blocks of at most `MAX_BLOCK_SIZE` bytes and at most
`MAX_CACHE_SIZE` bytes in all, the decoded fields recompose to the address:
`(tag << (b + s)) | (set_index << b) | (address mod block_size) = address`;
neither shift exceeds the address, so nothing is lost in 32 bits. -/
theorem address_round_trip (address sets block_size s b : Nat)
    (haddr : address < UINT32_MOD) (hblock : block_size = 2 ^ b) (hsets : sets = 2 ^ s)
    (hbmax : block_size ≤ MAX_BLOCK_SIZE) (hcmax : sets * block_size ≤ MAX_CACHE_SIZE) :
    (get_tag address sets block_size <<< (b + s)) |||
        (get_set_index address sets block_size <<< b) ||| (address % block_size) = address ∧
    get_tag address sets block_size <<< (b + s) ≤ address ∧
    get_set_index address sets block_size <<< b ≤ address := by
  subst hblock hsets
  rw [get_tag_pow, get_set_index_pow]
  refine ⟨?_, ?_, ?_⟩
  · apply Nat.eq_of_testBit_eq
    intro i
    have hdiv : address / 2 ^ b = address >>> b := (Nat.shiftRight_eq_div_pow address b).symm
    rw [hdiv]
    simp only [Nat.testBit_or, Nat.testBit_shiftLeft, Nat.testBit_shiftRight,
      Nat.testBit_mod_two_pow]
    by_cases h1 : i < b
    · have h2 : ¬ (i ≥ b + s) := by omega
      have h3 : ¬ (i ≥ b) := by omega
      simp [h1, h2, h3]
    · by_cases h4 : i < b + s
      · have h2 : ¬ (i ≥ b + s) := by omega
        have h3 : i ≥ b := by omega
        have h5 : i - b < s := by omega
        have h6 : b + (i - b) = i := by omega
        simp [h1, h2, h3, h5, h6]
      · have h2 : i ≥ b + s := by omega
        have h3 : i ≥ b := by omega
        have h5 : ¬ (i - b < s) := by omega
        have h6 : b + s + (i - (b + s)) = i := by omega
        simp [h1, h2, h3, h5, h6]
  · rw [Nat.shiftLeft_eq, Nat.shiftRight_eq_div_pow]
    exact Nat.div_mul_le_self address (2 ^ (b + s))
  · rw [Nat.shiftLeft_eq]
    calc address / 2 ^ b % 2 ^ s * 2 ^ b
        ≤ address / 2 ^ b * 2 ^ b := Nat.mul_le_mul_right _ (Nat.mod_le _ _)
      _ ≤ address := Nat.div_mul_le_self address (2 ^ b)

/-- Witness for C8: address `0xDEADBEEF` with 64 sets and blocks of 32
bytes. -/
theorem address_round_trip_witness :
    (get_tag 3735928559 64 32 <<< (5 + 6)) |||
        (get_set_index 3735928559 64 32 <<< 5) ||| (3735928559 % 32) = 3735928559 :=
  (address_round_trip 3735928559 64 32 6 5 (by decide) (by decide) (by decide) (by decide)
    (by decide)).1

/-- C10, at the failing input: for address `0xFFFFFFFF` and size 1 the
integer sum `address + size` exceeds `ADDRESS_SPACE_SIZE`, but the sum
computed in `unsigned int` is 0, the bounds check of `read_memory` does not
fire, and the byte at offset `0xFFFFFFFF`, outside the 16 MiB array, is
read. -/
theorem read_memory_wraps_around (mem : Memory) :
    ((4294967295 : Nat) : Int) + 1 > (ADDRESS_SPACE_SIZE : Int) ∧
    read_memory mem 4294967295 1 ≠ none ∧
    read_memory mem 4294967295 1 = some [mem 4294967295] := by
  refine ⟨by decide, ?_, ?_⟩
  · simp [read_memory, UINT32_MOD, ADDRESS_SPACE_SIZE]
  · simp [read_memory, UINT32_MOD, ADDRESS_SPACE_SIZE, List.range_succ]

/-! ## Backing store: writes -/

/-- The effect of the first `n` iterations of `write_memory` when no index
wraps around `2 ^ 32`. -/
theorem write_loop_apply (mem : Memory) (address : Nat) (value : List Nat) (n : Nat)
    (hn : address + n ≤ UINT32_MOD) (j : Nat) :
    write_loop mem address value n j =
      if address ≤ j ∧ j < address + n then value.getD (j - address) 0 % 256 else mem j := by
  induction n with
  | zero =>
    have h : ¬ (address ≤ j ∧ j < address + 0) := by omega
    rw [if_neg h]
    rfl
  | succ n ih =>
    have hmod : (address + n) % UINT32_MOD = address + n := Nat.mod_eq_of_lt (by omega)
    have hstep : write_loop mem address value (n + 1) j =
        Function.update (write_loop mem address value n) (address + n)
          (value.getD n 0 % 256) j := by
      rw [← hmod]
      rfl
    rw [hstep]
    by_cases hj : j = address + n
    · subst hj
      have h : address ≤ address + n ∧ address + n < address + (n + 1) := by omega
      rw [Function.update_same, if_pos h]
      have h2 : address + n - address = n := by omega
      rw [h2]
    · rw [Function.update_noteq hj, ih (by omega)]
      by_cases h1 : address ≤ j ∧ j < address + n
      · have h2 : address ≤ j ∧ j < address + (n + 1) := by omega
        rw [if_pos h1, if_pos h2]
      · have h2 : ¬ (address ≤ j ∧ j < address + (n + 1)) := by omega
        rw [if_neg h1, if_neg h2]

/-- An in-bounds write copies the bytes. -/
theorem write_memory_in_bounds (mem : Memory) (address : Nat) (value : List Nat) (size : Int)
    (hsize : 0 ≤ size) (hb : (address : Int) + size ≤ (ADDRESS_SPACE_SIZE : Int)) :
    write_memory mem address value size = write_loop mem address value size.toNat := by
  unfold write_memory
  have hcond : ¬ ((((address : Int) + size) % (UINT32_MOD : Int)).toNat > ADDRESS_SPACE_SIZE) := by
    simp only [UINT32_MOD, ADDRESS_SPACE_SIZE, Nat.cast_ofNat] at *
    omega
  rw [if_neg hcond]

/-- Reading back what an in-bounds write stored. -/
theorem read_after_write (mem : Memory) (address : Nat) (bytes : List Nat) (size : Int)
    (hsize : 0 ≤ size) (hlen : (bytes.length : Int) = size)
    (hbytes : ∀ x, x ∈ bytes → x < 256)
    (hb : (address : Int) + size ≤ (ADDRESS_SPACE_SIZE : Int)) :
    read_memory (write_memory mem address bytes size) address size = some bytes := by
  rw [read_memory_in_bounds _ _ _ hsize hb, write_memory_in_bounds _ _ _ _ hsize hb]
  have hn : size.toNat = bytes.length := by omega
  have hsmall : address + bytes.length ≤ UINT32_MOD := by
    simp only [UINT32_MOD, ADDRESS_SPACE_SIZE, Nat.cast_ofNat] at *
    omega
  rw [hn]
  congr 1
  apply List.ext_getElem
  · simp
  · intro i h1 h2
    have hi : i < bytes.length := h2
    have hmod : (address + i) % UINT32_MOD = address + i := Nat.mod_eq_of_lt (by omega)
    have hc : address ≤ address + i ∧ address + i < address + bytes.length := by omega
    have hsub : address + i - address = i := by omega
    have hget : bytes.getD i 0 = bytes[i] := by
      simp [List.getD_eq_getElem?_getD, List.getElem?_eq_getElem hi]
    have hlt : bytes[i] < 256 := hbytes _ (List.getElem_mem hi)
    simp only [List.getElem_map, List.getElem_range, hmod]
    rw [write_loop_apply mem address bytes bytes.length hsmall, if_pos hc, hsub, hget]
    exact Nat.mod_eq_of_lt hlt

/-! ## Claims on the backing store, on the scenarios and on `main` -/

/-- C11, at the failing input: for address `0xFFFFFFFF` and size 2 the
integer sum `address + size` exceeds `ADDRESS_SPACE_SIZE`, but the sum
computed in `unsigned int` is 1, the bounds check of `write_memory` does not
fire, and the loop stores the first byte at offset `0xFFFFFFFF`, outside the
array, and the second byte at offset 0 of the backing store. -/
theorem write_memory_wraps_around (mem : Memory) :
    ((4294967295 : Nat) : Int) + 2 > (ADDRESS_SPACE_SIZE : Int) ∧
    write_memory mem 4294967295 [1, 2] 2 0 = 2 ∧
    write_memory mem 4294967295 [1, 2] 2 4294967295 = 1 ∧
    write_memory (fun _ => 0) 4294967295 [1, 2] 2 ≠ (fun _ => 0) := by
  have h0 : write_memory mem 4294967295 [1, 2] 2 0 = 2 := by
    simp [write_memory, write_loop, UINT32_MOD, ADDRESS_SPACE_SIZE, Function.update]
  have h1 : write_memory mem 4294967295 [1, 2] 2 4294967295 = 1 := by
    simp [write_memory, write_loop, UINT32_MOD, ADDRESS_SPACE_SIZE, Function.update]
  refine ⟨by decide, h0, h1, ?_⟩
  intro h
  have h2 : write_memory (fun _ => 0) 4294967295 [1, 2] 2 0 = 2 := by
    simp [write_memory, write_loop, UINT32_MOD, ADDRESS_SPACE_SIZE, Function.update]
  rw [h] at h2
  exact absurd h2 (by decide)

/-- C12: for every backing store, every address and every sequence of
`size` bytes with `size` in 1..8 and `address + size ≤ ADDRESS_SPACE_SIZE`,
`write_memory` followed by `read_memory` of the same address and size
returns exactly the bytes written. -/
theorem write_read_round_trip (mem : Memory) (address : Nat) (bytes : List Nat) (size : Int)
    (hsize : 1 ≤ size ∧ size ≤ 8) (hlen : (bytes.length : Int) = size)
    (hbytes : ∀ x, x ∈ bytes → x < 256)
    (hb : (address : Int) + size ≤ (ADDRESS_SPACE_SIZE : Int)) :
    read_memory (write_memory mem address bytes size) address size = some bytes :=
  read_after_write mem address bytes size (by omega) hlen hbytes hb

/-- Witness for C12: four bytes written at offset `0x10`. -/
theorem write_read_round_trip_witness :
    read_memory (write_memory (fun _ => 0) 16 [1, 2, 3, 4] 4) 16 4 = some [1, 2, 3, 4] :=
  write_read_round_trip (fun _ => 0) 16 [1, 2, 3, 4] 4 (by decide) (by decide) (by decide)
    (by decide)

/-- The report of a load is `load_report` on the memory the access started
with, whatever the classification. -/
theorem access_cache_load_report (address : Nat) (access_size : Int) (value : List Nat)
    (cache : Cache) (mem : Memory) (sets ways block_size : Nat) :
    ∃ hit,
      (access_cache address "load" access_size value cache mem sets ways block_size).report
        = load_report hit mem address access_size := by
  cases hl : lookup_loop cache (get_set_index address sets block_size) ways
      (get_tag address sets block_size) ways with
  | some idx => exact ⟨true, by rw [access_cache_load_found _ _ _ _ _ _ _ _ idx hl]⟩
  | none => exact ⟨false, by rw [access_cache_load_not_found _ _ _ _ _ _ _ _ hl]⟩

/-- C13 (Scenario A): from the initial cache with 1 set, 2 ways and blocks
of 4 bytes, the loads of `0x0`, `0x4`, `0x0`, `0x8` (4 bytes each) are
reported miss, miss, hit, miss; the first load fills way 0, the second fills
way 1, the victim of the fourth is way 1, and at the end way 0 holds the tag
of `0x0` and way 1 the tag of `0x8`. -/
theorem scenario_a :
    (process_records 1 2 4 (init_cache 1 2) (fun _ => 0)
        [⟨"load", 0, 4, []⟩, ⟨"load", 4, 4, []⟩, ⟨"load", 0, 4, []⟩, ⟨"load", 8, 4, []⟩]).reports
      = [Report.load false (some [0, 0, 0, 0]), Report.load false (some [0, 0, 0, 0]),
         Report.load true (some [0, 0, 0, 0]), Report.load false (some [0, 0, 0, 0])] ∧
    (process_records 1 2 4 (init_cache 1 2) (fun _ => 0) [⟨"load", 0, 4, []⟩]).cache
      = [⟨get_tag 0 1 4, 1, 0⟩, ⟨0, 0, 1⟩] ∧
    (process_records 1 2 4 (init_cache 1 2) (fun _ => 0)
        [⟨"load", 0, 4, []⟩, ⟨"load", 4, 4, []⟩]).cache
      = [⟨get_tag 0 1 4, 1, 1⟩, ⟨get_tag 4 1 4, 1, 0⟩] ∧
    find_least_recently_used
        (process_records 1 2 4 (init_cache 1 2) (fun _ => 0)
          [⟨"load", 0, 4, []⟩, ⟨"load", 4, 4, []⟩, ⟨"load", 0, 4, []⟩]).cache
        (get_set_index 8 1 4) 2 = get_set_index 8 1 4 * 2 + 1 ∧
    (process_records 1 2 4 (init_cache 1 2) (fun _ => 0)
        [⟨"load", 0, 4, []⟩, ⟨"load", 4, 4, []⟩, ⟨"load", 0, 4, []⟩, ⟨"load", 8, 4, []⟩]).cache
      = [⟨get_tag 0 1 4, 1, 1⟩, ⟨get_tag 8 1 4, 1, 0⟩] ∧
    get_tag 0 1 4 ≠ get_tag 8 1 4 := by
  decide

/-- C14: in a geometry with `sets` and `block_size` powers of two, for every
cache and memory and every in-bounds address, size in 1..8 and value of that
many bytes, a store is reported as a miss and leaves every valid flag as it
was, and a load of the same address and size issued right after it returns
exactly the stored bytes, whether it is classified as a hit or as a miss. -/
theorem store_then_load (address : Nat) (access_size : Int) (value value2 : List Nat)
    (cache : Cache) (mem : Memory) (sets ways block_size s b : Nat)
    (hsets : sets = 2 ^ s) (hblock : block_size = 2 ^ b) (hways : 1 ≤ ways)
    (hcache : cache.length = sets * ways)
    (hsize : 1 ≤ access_size ∧ access_size ≤ 8)
    (hlen : (value.length : Int) = access_size)
    (hbytes : ∀ x, x ∈ value → x < 256)
    (hb : (address : Int) + access_size ≤ (ADDRESS_SPACE_SIZE : Int)) :
    (access_cache address "store" access_size value cache mem sets ways block_size).report
      = Report.store_miss ∧
    (∀ j,
      (line_at
          (access_cache address "store" access_size value cache mem sets ways block_size).cache
          j).valid = (line_at cache j).valid) ∧
    (∃ hit,
      (access_cache address "load" access_size value2
          (access_cache address "store" access_size value cache mem sets ways block_size).cache
          (access_cache address "store" access_size value cache mem sets ways block_size).memory
          sets ways block_size).report = Report.load hit (some value)) := by
  have hmemsize : (address : Int) + access_size < (UINT32_MOD : Int) := by
    simp only [UINT32_MOD, ADDRESS_SPACE_SIZE, Nat.cast_ofNat] at *
    omega
  refine ⟨?_, ?_, ?_⟩
  · rw [access_cache_store]
    exact store_report_no_wrap address access_size (by omega) hmemsize
  · intro j
    rw [access_cache_store]
    cases lookup_loop cache (get_set_index address sets block_size) ways
        (get_tag address sets block_size) ways with
    | none => rfl
    | some idx => exact valid_update_lru_counters _ _ _ _ _
  · obtain ⟨hit, hrep⟩ := access_cache_load_report address access_size value2
      (access_cache address "store" access_size value cache mem sets ways block_size).cache
      (access_cache address "store" access_size value cache mem sets ways block_size).memory
      sets ways block_size
    refine ⟨hit, ?_⟩
    rw [hrep]
    have hmem :
        (access_cache address "store" access_size value cache mem sets ways block_size).memory
          = write_memory mem address value access_size := by
      rw [access_cache_store]
    have hread := read_after_write mem address value access_size (by omega) hlen hbytes hb
    rw [hmem]
    unfold load_report
    rw [hread]
    simp only [outside_memory_in_bounds address access_size hb]
    rfl

/-- Witness for C14 (Scenario C): `store 0x10` of the four bytes 1, 2, 3, 4
followed by `load 0x10` of four bytes, on the empty two-way cache with 4
sets and blocks of 4 bytes. -/
theorem store_then_load_witness :
    (access_cache 16 "store" 4 [1, 2, 3, 4] (init_cache 4 2) (fun _ => 0) 4 2 4).report
      = Report.store_miss ∧
    (∃ hit,
      (access_cache 16 "load" 4 []
          (access_cache 16 "store" 4 [1, 2, 3, 4] (init_cache 4 2) (fun _ => 0) 4 2 4).cache
          (access_cache 16 "store" 4 [1, 2, 3, 4] (init_cache 4 2) (fun _ => 0) 4 2 4).memory
          4 2 4).report = Report.load hit (some [1, 2, 3, 4])) :=
  ⟨(store_then_load 16 4 [1, 2, 3, 4] [] (init_cache 4 2) (fun _ => 0) 4 2 4 2 2
      (by decide) (by decide) (by decide) (by decide) (by decide) (by decide) (by decide)
      (by decide)).1,
   (store_then_load 16 4 [1, 2, 3, 4] [] (init_cache 4 2) (fun _ => 0) 4 2 4 2 2
      (by decide) (by decide) (by decide) (by decide) (by decide) (by decide) (by decide)
      (by decide)).2.2⟩


/-- C17, as stated, fails: a cache of 3 kB with 1 way and blocks of 1024
bytes gives `sets = 3`, which is not a power of two, and a cache of 1 kB with
4 ways and blocks of 1024 bytes gives `sets = 0`; `main` rejects neither.
With 0 ways the divisor is zero and no rejection is issued either. -/
theorem main_config_counterexample :
    main_config 3 1 1024 = ConfigOutcome.accepted 3 ∧
    (¬ ∃ k : Nat, (3 : Int) = 2 ^ k) ∧
    main_config 1 4 1024 = ConfigOutcome.accepted 0 ∧
    main_config 1 0 4 = ConfigOutcome.division_by_zero := by
  refine ⟨by decide, ?_, by decide, by decide⟩
  rintro ⟨k, hk⟩
  cases k with
  | zero => simp at hk
  | succ k =>
    rw [pow_succ] at hk
    omega

/-- An `int` computation whose mathematical result fits an `int` yields
that result. -/
theorem int32_wrap_of_fits (x : Int) (hmin : INT_MIN ≤ x) (hmax : x ≤ INT_MAX) :
    int32_wrap x = x := by
  unfold int32_wrap
  simp only [INT_MIN, INT_MAX] at hmin hmax
  omega

/-- C17 amended: for a configuration with a non-negative cache size, at
least one way and one byte per block, whose products `1024 * cache_size_kb`
(the cache size in bytes) and `ways * block_size` fit an `int`, `main`
rejects exactly when the cache size in bytes exceeds `MAX_CACHE_SIZE` or the
block size exceeds `MAX_BLOCK_SIZE`; otherwise it goes on with
`sets = cache_size / (ways * block_size)`, whatever that quotient is. -/
theorem main_config_spec (cache_size_kb associativity block_size : Int)
    (hkb : 0 ≤ cache_size_kb) (hcs : cache_size_kb * 1024 ≤ INT_MAX)
    (hw : 1 ≤ associativity) (hbs : 1 ≤ block_size)
    (hprod : associativity * block_size ≤ INT_MAX) :
    (main_config cache_size_kb associativity block_size = ConfigOutcome.rejected ↔
      (cache_size_kb * 1024 > (MAX_CACHE_SIZE : Int) ∨ block_size > (MAX_BLOCK_SIZE : Int))) ∧
    (¬ (cache_size_kb * 1024 > (MAX_CACHE_SIZE : Int) ∨ block_size > (MAX_BLOCK_SIZE : Int)) →
      main_config cache_size_kb associativity block_size
        = ConfigOutcome.accepted (cache_size_kb * 1024 / (associativity * block_size))) := by
  have hpos : 0 < associativity * block_size := Int.mul_pos (by omega) (by omega)
  have hwc : int32_wrap (cache_size_kb * 1024) = cache_size_kb * 1024 :=
    int32_wrap_of_fits _ (by simp only [INT_MIN]; omega) hcs
  have hwd : int32_wrap (associativity * block_size) = associativity * block_size :=
    int32_wrap_of_fits _ (by simp only [INT_MIN]; omega) hprod
  have h0 : ¬ (associativity * block_size = 0) := by omega
  have hmin : ¬ (cache_size_kb * 1024 = INT_MIN ∧ associativity * block_size = -1) := by
    simp only [INT_MIN]
    omega
  unfold main_config
  simp only [hwc, hwd]
  by_cases h : cache_size_kb * 1024 > (MAX_CACHE_SIZE : Int) ∨
      block_size > (MAX_BLOCK_SIZE : Int)
  · simp only [h, if_true, true_iff, not_true_eq_false, false_implies, and_self]
  · simp only [h, h0, hmin, if_false, reduceCtorEq, false_iff, not_false_eq_true,
      true_implies, true_and]
    rw [Int.tdiv_eq_ediv (by omega) (by omega)]

/-- Witness for C17 amended: 32 kB, 4 ways, blocks of 64 bytes give 128
sets. -/
theorem main_config_spec_witness :
    main_config 32 4 64 = ConfigOutcome.accepted (32 * 1024 / (4 * 64)) :=
  (main_config_spec 32 4 64 (by decide) (by decide) (by decide) (by decide) (by decide)).2
    (by decide)

/-! ## The tags of the reachable cache states -/

/-- Lines of two different sets are different entries of the array. -/
theorem set_range_disjoint (si sj ways i : Nat) (hne : sj ≠ si) (hi : i < ways) :
    sj * ways + i < si * ways ∨ si * ways + ways ≤ sj * ways + i := by
  rcases Nat.lt_or_gt_of_ne hne with hlt | hgt
  · left
    have h1 : (sj + 1) * ways ≤ si * ways := Nat.mul_le_mul_right ways hlt
    have h2 : (sj + 1) * ways = sj * ways + ways := by ring
    omega
  · right
    have h1 : (si + 1) * ways ≤ sj * ways := Nat.mul_le_mul_right ways hgt
    have h2 : (si + 1) * ways = si * ways + ways := by ring
    omega

/-- A hit touches the line found. -/
theorem touch_rel_hit (cache : Cache) (si ways w : Nat) (hw : w < ways)
    (hlen : si * ways + ways ≤ cache.length) :
    touch_rel cache (update_lru_counters cache si ways (si * ways + w)) ways si w
      (line_at cache (si * ways + w)).tag (line_at cache (si * ways + w)).valid := by
  refine ⟨length_update_lru_counters _ _ _ _, ?_, ?_, ?_⟩
  · intro j hj
    have h : ¬ (si * ways ≤ j ∧ j < si * ways + ways ∧ j < cache.length) := by omega
    rw [line_at_update_lru_counters, if_neg h]
  · have h : si * ways ≤ si * ways + w ∧ si * ways + w < si * ways + ways ∧
        si * ways + w < cache.length := by omega
    rw [line_at_update_lru_counters, if_pos h, if_pos rfl]
  · intro i hi hne
    have h : si * ways ≤ si * ways + i ∧ si * ways + i < si * ways + ways ∧
        si * ways + i < cache.length := by omega
    have h2 : ¬ (si * ways + i = si * ways + w) := by omega
    rw [line_at_update_lru_counters, if_pos h, if_neg h2]

/-- A fill touches the victim and leaves it valid with the new tag. -/
theorem touch_rel_fill (cache : Cache) (si ways w tg : Nat) (hw : w < ways)
    (hlen : si * ways + ways ≤ cache.length) :
    touch_rel cache
      (update_lru_counters
        (cache.set (si * ways + w) ⟨tg, 1, (line_at cache (si * ways + w)).lru_counter⟩)
        si ways (si * ways + w)) ways si w tg 1 := by
  have hl : (cache.set (si * ways + w)
      ⟨tg, 1, (line_at cache (si * ways + w)).lru_counter⟩).length = cache.length :=
    List.length_set _ _ _
  refine ⟨by rw [length_update_lru_counters, hl], ?_, ?_, ?_⟩
  · intro j hj
    have h : ¬ (si * ways ≤ j ∧ j < si * ways + ways ∧
        j < (cache.set (si * ways + w)
          ⟨tg, 1, (line_at cache (si * ways + w)).lru_counter⟩).length) := by omega
    have h2 : ¬ (si * ways + w = j ∧ si * ways + w < cache.length) := by omega
    rw [line_at_update_lru_counters, if_neg h, line_at_set, if_neg h2]
  · have h : si * ways ≤ si * ways + w ∧ si * ways + w < si * ways + ways ∧
        si * ways + w < (cache.set (si * ways + w)
          ⟨tg, 1, (line_at cache (si * ways + w)).lru_counter⟩).length := by omega
    have h2 : si * ways + w = si * ways + w ∧ si * ways + w < cache.length := by omega
    rw [line_at_update_lru_counters, if_pos h, if_pos rfl, line_at_set, if_pos h2]
  · intro i hi hne
    have h : si * ways ≤ si * ways + i ∧ si * ways + i < si * ways + ways ∧
        si * ways + i < (cache.set (si * ways + w)
          ⟨tg, 1, (line_at cache (si * ways + w)).lru_counter⟩).length := by omega
    have h2 : ¬ (si * ways + i = si * ways + w) := by omega
    have h3 : ¬ (si * ways + w = si * ways + i ∧ si * ways + w < cache.length) := by omega
    rw [line_at_update_lru_counters, if_pos h, if_neg h2, line_at_set, if_neg h3]

/-- A touch that leaves its line with a tag no other valid line of the set
holds preserves the invariant on the tags. -/
theorem tags_inv_touch (cache cache2 : Cache) (sets ways si w tg : Nat) (vd : Int)
    (hw : w < ways) (ht : touch_rel cache cache2 ways si w tg vd)
    (htag : ∀ i, i < ways → i ≠ w → (line_at cache (si * ways + i)).valid ≠ 0 →
      (line_at cache (si * ways + i)).tag ≠ tg)
    (hinv : tags_inv cache sets ways) : tags_inv cache2 sets ways := by
  obtain ⟨hlen2, hout, hline, hother⟩ := ht
  obtain ⟨hlen, hdist⟩ := hinv
  refine ⟨by rw [hlen2, hlen], ?_⟩
  intro sj i j hsj hi hj hij hvi hvj
  by_cases hne : sj = si
  · subst hne
    by_cases hiw : i = w
    · subst hiw
      have hjw : j ≠ i := fun h => hij h.symm
      rw [hother j hj hjw] at hvj ⊢
      rw [hline]
      have hvj2 : (line_at cache (sj * ways + j)).valid ≠ 0 := hvj
      show tg ≠ (line_at cache (sj * ways + j)).tag
      exact fun h => htag j hj hjw hvj2 h.symm
    · by_cases hjw : j = w
      · subst hjw
        rw [hother i hi hiw] at hvi ⊢
        rw [hline]
        have hvi2 : (line_at cache (sj * ways + i)).valid ≠ 0 := hvi
        show (line_at cache (sj * ways + i)).tag ≠ tg
        exact htag i hi hiw hvi2
      · rw [hother i hi hiw] at hvi ⊢
        rw [hother j hj hjw] at hvj ⊢
        exact hdist sj i j hsj hi hj hij hvi hvj
  · rw [hout _ (set_range_disjoint si sj ways i hne hi)] at hvi ⊢
    rw [hout _ (set_range_disjoint si sj ways j hne hj)] at hvj ⊢
    exact hdist sj i j hsj hi hj hij hvi hvj

/-- Every entry of the initial array is the invalid line with tag 0 and
counter 0. -/
theorem line_at_init_cache (sets ways j : Nat) : line_at (init_cache sets ways) j = ⟨0, 0, 0⟩ := by
  unfold line_at init_cache
  rw [List.getD_eq_getElem?_getD]
  by_cases h : j < sets * ways
  · rw [List.getElem?_eq_getElem (by simpa using h)]
    simp
  · rw [List.getElem?_eq_none (by simpa using h)]
    rfl

theorem tags_inv_init (sets ways : Nat) : tags_inv (init_cache sets ways) sets ways := by
  refine ⟨by simp [init_cache], ?_⟩
  intro si i j _ _ _ _ hvi
  rw [line_at_init_cache] at hvi
  exact absurd rfl hvi

/-- What one load or store does to the cache: nothing (a store that finds
no line), a touch of the first matching line, or the fill and touch of the
victim (a load that finds no line). -/
theorem access_step (address : Nat) (access_type : String) (access_size : Int)
    (value : List Nat) (cache : Cache) (mem : Memory) (sets ways block_size : Nat)
    (htype : access_type = "load" ∨ access_type = "store") (hways : 1 ≤ ways)
    (hsi : get_set_index address sets block_size < sets)
    (hlen : cache.length = sets * ways) :
    (access_type = "store" ∧
      (∀ i, i < ways →
        ¬ line_matches cache (get_set_index address sets block_size * ways + i)
            (get_tag address sets block_size)) ∧
      (access_cache address access_type access_size value cache mem sets ways
        block_size).cache = cache) ∨
    (∃ w, w < ways ∧
      line_matches cache (get_set_index address sets block_size * ways + w)
        (get_tag address sets block_size) ∧
      touch_rel cache
        (access_cache address access_type access_size value cache mem sets ways
          block_size).cache
        ways (get_set_index address sets block_size) w (get_tag address sets block_size)
        (line_at cache (get_set_index address sets block_size * ways + w)).valid) ∨
    (∃ w, w < ways ∧
      access_type = "load" ∧
      (∀ i, i < ways →
        ¬ line_matches cache (get_set_index address sets block_size * ways + i)
            (get_tag address sets block_size)) ∧
      find_least_recently_used cache (get_set_index address sets block_size) ways
        = get_set_index address sets block_size * ways + w ∧
      touch_rel cache
        (access_cache address access_type access_size value cache mem sets ways
          block_size).cache
        ways (get_set_index address sets block_size) w (get_tag address sets block_size) 1) := by
  have hrange : get_set_index address sets block_size * ways + ways ≤ cache.length := by
    have h1 : (get_set_index address sets block_size + 1) * ways ≤ sets * ways :=
      Nat.mul_le_mul_right ways hsi
    have h2 : (get_set_index address sets block_size + 1) * ways
        = get_set_index address sets block_size * ways + ways := by ring
    omega
  cases hl : lookup_loop cache (get_set_index address sets block_size) ways
      (get_tag address sets block_size) ways with
  | some idx =>
    right
    left
    obtain ⟨w, hw, hidx, hm, _⟩ := lookup_loop_some _ _ _ _ _ _ hl
    subst hidx
    have htouch := touch_rel_hit cache (get_set_index address sets block_size) ways w hw hrange
    rw [hm.2] at htouch
    refine ⟨w, hw, hm, ?_⟩
    rcases htype with ht | ht
    · subst ht
      rw [access_cache_load_found _ _ _ _ _ _ _ _ _ hl]
      exact htouch
    · subst ht
      rw [access_cache_store, hl]
      exact htouch
  | none =>
    have hnone := (lookup_loop_none_iff _ _ _ _ _).mp hl
    rcases htype with ht | ht
    · subst ht
      right
      right
      obtain ⟨w, hw, hv⟩ := find_least_recently_used_in_set cache
        (get_set_index address sets block_size) ways hways
      refine ⟨w, hw, rfl, hnone, hv, ?_⟩
      rw [access_cache_load_not_found _ _ _ _ _ _ _ _ hl, hv]
      exact touch_rel_fill cache (get_set_index address sets block_size) ways w
        (get_tag address sets block_size) hw hrange
    · subst ht
      left
      refine ⟨rfl, hnone, ?_⟩
      rw [access_cache_store, hl]

/-- One load or store preserves the invariant on the tags. -/
theorem tags_inv_access (address : Nat) (access_type : String) (access_size : Int)
    (value : List Nat) (cache : Cache) (mem : Memory) (sets ways block_size : Nat)
    (htype : access_type = "load" ∨ access_type = "store") (hways : 1 ≤ ways)
    (hsets : 1 ≤ sets) (hinv : tags_inv cache sets ways) :
    tags_inv
      (access_cache address access_type access_size value cache mem sets ways
        block_size).cache sets ways := by
  have hsi : get_set_index address sets block_size < sets :=
    get_set_index_lt address sets block_size hsets
  rcases access_step address access_type access_size value cache mem sets ways block_size
      htype hways hsi hinv.1 with ⟨_, _, hc⟩ | ⟨w, hw, hm, ht⟩ | ⟨w, hw, _, hnone, _, ht⟩
  · rw [hc]
    exact hinv
  · refine tags_inv_touch cache _ sets ways _ w _ _ hw ht ?_ hinv
    intro i hi hiw hvi
    have hd := hinv.2 _ i w hsi hi hw hiw hvi hm.1
    rw [hm.2] at hd
    exact hd
  · refine tags_inv_touch cache _ sets ways _ w _ 1 hw ht ?_ hinv
    intro i hi _ hvi htg
    exact hnone i hi ⟨hvi, htg⟩

/-- The record loop preserves the invariant on the tags. -/
theorem tags_inv_process_records (sets ways block_size : Nat) (hways : 1 ≤ ways)
    (hsets : 1 ≤ sets) (recs : List access_record) :
    ∀ (cache : Cache) (mem : Memory), (∀ r, r ∈ recs → in_bounds_record r) →
      tags_inv cache sets ways →
      tags_inv (process_records sets ways block_size cache mem recs).cache sets ways := by
  induction recs with
  | nil =>
    intro cache mem _ hinv
    exact hinv
  | cons r rs ih =>
    intro cache mem hrec hinv
    have hstep := tags_inv_access r.address r.access_type r.access_size r.value cache mem
      sets ways block_size (hrec r (List.mem_cons_self _ _)).1 hways hsets hinv
    simp only [process_records]
    split
    · exact hstep
    · exact ih _ _ (fun r2 hr2 => hrec r2 (List.mem_cons_of_mem _ hr2)) hstep

/-- Every state reached from the initial cache satisfies the invariant on
the tags. -/
theorem tags_inv_reachable (sets ways block_size : Nat) (hways : 1 ≤ ways)
    (hsets : 1 ≤ sets) (recs : List access_record) (mem : Memory)
    (hrec : ∀ r, r ∈ recs → in_bounds_record r) :
    tags_inv (process_records sets ways block_size (init_cache sets ways) mem recs).cache
      sets ways :=
  tags_inv_process_records sets ways block_size hways hsets recs _ mem hrec
    (tags_inv_init sets ways)

/-- C20: in any geometry with at least one set, one way and one byte per
block, after any sequence of in-bounds loads and stores on the initial
cache, two distinct valid lines of one set hold different tags, so for any
tag the test of the lookup loop succeeds on at most one line of the set. -/
theorem reachable_tags_distinct (sets ways block_size : Nat) (hways : 1 ≤ ways)
    (hsets : 1 ≤ sets) (hblock : 1 ≤ block_size) (recs : List access_record)
    (mem : Memory) (hrec : ∀ r, r ∈ recs → in_bounds_record r)
    (si i j : Nat) (hsi : si < sets) (hi : i < ways) (hj : j < ways) :
    (i ≠ j →
      (line_at (process_records sets ways block_size (init_cache sets ways) mem recs).cache
        (si * ways + i)).valid ≠ 0 →
      (line_at (process_records sets ways block_size (init_cache sets ways) mem recs).cache
        (si * ways + j)).valid ≠ 0 →
      (line_at (process_records sets ways block_size (init_cache sets ways) mem recs).cache
        (si * ways + i)).tag
      ≠ (line_at (process_records sets ways block_size (init_cache sets ways) mem recs).cache
        (si * ways + j)).tag) ∧
    (∀ tag,
      line_matches (process_records sets ways block_size (init_cache sets ways) mem recs).cache
        (si * ways + i) tag →
      line_matches (process_records sets ways block_size (init_cache sets ways) mem recs).cache
        (si * ways + j) tag → i = j) := by
  have hinv := tags_inv_reachable sets ways block_size hways hsets recs mem hrec
  generalize (process_records sets ways block_size (init_cache sets ways) mem recs).cache
    = final at hinv
  obtain ⟨_, hdist⟩ := hinv
  constructor
  · intro hij hvi hvj
    exact hdist si i j hsi hi hj hij hvi hvj
  · intro tag hmi hmj
    by_contra hij
    have := hdist si i j hsi hi hj hij hmi.1 hmj.1
    rw [hmi.2, hmj.2] at this
    exact this rfl

/-- Witness for C20: the two ways of the one-set cache after the loads of
`0x0` and `0x4`. -/
theorem reachable_tags_distinct_witness :
    (line_at (process_records 1 2 4 (init_cache 1 2) (fun _ => 0)
        [⟨"load", 0, 4, []⟩, ⟨"load", 4, 4, []⟩]).cache (0 * 2 + 0)).tag
      ≠ (line_at (process_records 1 2 4 (init_cache 1 2) (fun _ => 0)
        [⟨"load", 0, 4, []⟩, ⟨"load", 4, 4, []⟩]).cache (0 * 2 + 1)).tag :=
  (reachable_tags_distinct 1 2 4 (by decide) (by decide) (by decide)
    [⟨"load", 0, 4, []⟩, ⟨"load", 4, 4, []⟩] (fun _ => 0) (by decide) 0 0 1
    (by decide) (by decide) (by decide)).1 (by decide) (by decide) (by decide)


/-! ## Long traces: the recency counter overflows

With 1 set, 2 ways and blocks of 512 bytes (`cachesim <trace> 1 2 512`),
the first load of `0x0` fills way 0 and every further load of `0x0` is a
hit that increments the counter of the invalid way 1. -/

/-- A load of `0x0` on the state in which way 0 holds block 0 and way 1 is
invalid with counter `x`, followed by the records `rest`. -/
theorem hit_then (x : Int) (rest : List access_record) :
    process_records 1 2 512 [⟨0, 1, 0⟩, ⟨0, 0, x⟩] (fun _ => 0) (⟨"load", 0, 4, []⟩ :: rest) =
      ⟨(process_records 1 2 512 [⟨0, 1, 0⟩, ⟨0, 0, int32_wrap (x + 1)⟩] (fun _ => 0) rest).cache,
       (process_records 1 2 512 [⟨0, 1, 0⟩, ⟨0, 0, int32_wrap (x + 1)⟩] (fun _ => 0) rest).memory,
       Report.load true (some [0, 0, 0, 0]) ::
        (process_records 1 2 512 [⟨0, 1, 0⟩, ⟨0, 0, int32_wrap (x + 1)⟩] (fun _ => 0)
          rest).reports⟩ :=
  rfl

/-- The first load of `0x0` on the empty cache, followed by the records
`rest`. -/
theorem fill_then (rest : List access_record) :
    process_records 1 2 512 (init_cache 1 2) (fun _ => 0) (⟨"load", 0, 4, []⟩ :: rest) =
      ⟨(process_records 1 2 512 [⟨0, 1, 0⟩, ⟨0, 0, 1⟩] (fun _ => 0) rest).cache,
       (process_records 1 2 512 [⟨0, 1, 0⟩, ⟨0, 0, 1⟩] (fun _ => 0) rest).memory,
       Report.load false (some [0, 0, 0, 0]) ::
        (process_records 1 2 512 [⟨0, 1, 0⟩, ⟨0, 0, 1⟩] (fun _ => 0) rest).reports⟩ :=
  rfl

/-- After `n` further loads of `0x0` the counter of way 1 has been
incremented `n` times, in `int` arithmetic. -/
theorem repeated_hits (n : Nat) :
    ∀ (x : Int) (rest : List access_record), INT_MIN ≤ x → x ≤ INT_MAX →
      (process_records 1 2 512 [⟨0, 1, 0⟩, ⟨0, 0, x⟩] (fun _ => 0)
          (List.replicate n ⟨"load", 0, 4, []⟩ ++ rest)).cache
        = (process_records 1 2 512 [⟨0, 1, 0⟩, ⟨0, 0, int32_wrap (x + n)⟩] (fun _ => 0)
            rest).cache ∧
      (process_records 1 2 512 [⟨0, 1, 0⟩, ⟨0, 0, x⟩] (fun _ => 0)
          (List.replicate n ⟨"load", 0, 4, []⟩ ++ rest)).reports
        = List.replicate n (Report.load true (some [0, 0, 0, 0])) ++
          (process_records 1 2 512 [⟨0, 1, 0⟩, ⟨0, 0, int32_wrap (x + n)⟩] (fun _ => 0)
            rest).reports := by
  induction n with
  | zero =>
    intro x rest hmin hmax
    have hx : int32_wrap (x + ((0 : Nat) : Int)) = x := by
      unfold int32_wrap
      simp only [INT_MIN, INT_MAX] at hmin hmax
      omega
    rw [hx]
    exact ⟨rfl, rfl⟩
  | succ n ih =>
    intro x rest hmin hmax
    have hlo : INT_MIN ≤ int32_wrap (x + 1) := by
      unfold int32_wrap
      simp only [INT_MIN]
      omega
    have hhi : int32_wrap (x + 1) ≤ INT_MAX := by
      unfold int32_wrap
      simp only [INT_MAX]
      omega
    have hx : int32_wrap (int32_wrap (x + 1) + (n : Int)) = int32_wrap (x + ((n + 1 : Nat) : Int)) := by
      unfold int32_wrap
      push_cast
      omega
    obtain ⟨h1, h2⟩ := ih (int32_wrap (x + 1)) rest hlo hhi
    rw [List.replicate_succ, List.cons_append, hit_then]
    rw [hx] at h1 h2
    exact ⟨h1, by rw [h2]; rfl⟩

/-- The cache after `n + 1` loads of `0x0` on the empty cache, followed
by the records `rest`. -/
theorem loads_of_one_block (n : Nat) (rest : List access_record) :
    (process_records 1 2 512 (init_cache 1 2) (fun _ => 0)
        (List.replicate (n + 1) ⟨"load", 0, 4, []⟩ ++ rest)).cache
      = (process_records 1 2 512 [⟨0, 1, 0⟩, ⟨0, 0, int32_wrap (1 + n)⟩] (fun _ => 0)
          rest).cache ∧
    (process_records 1 2 512 (init_cache 1 2) (fun _ => 0)
        (List.replicate (n + 1) ⟨"load", 0, 4, []⟩ ++ rest)).reports
      = Report.load false (some [0, 0, 0, 0]) ::
          (List.replicate n (Report.load true (some [0, 0, 0, 0])) ++
            (process_records 1 2 512 [⟨0, 1, 0⟩, ⟨0, 0, int32_wrap (1 + n)⟩] (fun _ => 0)
              rest).reports) := by
  obtain ⟨h1, h2⟩ := repeated_hits n 1 rest (by decide) (by decide)
  rw [List.replicate_succ, List.cons_append, fill_then]
  exact ⟨h1, by rw [← h2]⟩

/-- C15, at the failing input: after 4294967296 loads of `0x0` the counter
of way 1 has been incremented 4294967296 times and is 0 again, so the set,
whose way 0 was touched by every one of these loads, has two lines with
counter 0. -/
theorem two_zero_counters_after_overflow :
    (process_records 1 2 512 (init_cache 1 2) (fun _ => 0)
        (List.replicate 4294967296 ⟨"load", 0, 4, []⟩)).cache
      = [⟨0, 1, 0⟩, ⟨0, 0, 0⟩] ∧
    (line_at (process_records 1 2 512 (init_cache 1 2) (fun _ => 0)
        (List.replicate 4294967296 ⟨"load", 0, 4, []⟩)).cache (0 * 2 + 0)).lru_counter = 0 ∧
    (line_at (process_records 1 2 512 (init_cache 1 2) (fun _ => 0)
        (List.replicate 4294967296 ⟨"load", 0, 4, []⟩)).cache (0 * 2 + 1)).lru_counter = 0 := by
  have h := (loads_of_one_block 4294967295 []).1
  rw [List.append_nil] at h
  have hc : (process_records 1 2 512 (init_cache 1 2) (fun _ => 0)
      (List.replicate 4294967296 ⟨"load", 0, 4, []⟩)).cache = [⟨0, 1, 0⟩, ⟨0, 0, 0⟩] := h
  rw [hc]
  decide

/-- C16, at the failing input: after 4294967296 loads of `0x0` the valid
way 0, touched by every one of these loads, and the invalid way 1 have
equal counters. -/
theorem equal_counters_after_overflow :
    (line_at (process_records 1 2 512 (init_cache 1 2) (fun _ => 0)
        (List.replicate 4294967296 ⟨"load", 0, 4, []⟩)).cache (0 * 2 + 0)).lru_counter
      = (line_at (process_records 1 2 512 (init_cache 1 2) (fun _ => 0)
        (List.replicate 4294967296 ⟨"load", 0, 4, []⟩)).cache (0 * 2 + 1)).lru_counter ∧
    (line_at (process_records 1 2 512 (init_cache 1 2) (fun _ => 0)
        (List.replicate 4294967296 ⟨"load", 0, 4, []⟩)).cache (0 * 2 + 0)).valid ≠ 0 ∧
    (line_at (process_records 1 2 512 (init_cache 1 2) (fun _ => 0)
        (List.replicate 4294967296 ⟨"load", 0, 4, []⟩)).cache (0 * 2 + 1)).valid = 0 := by
  have h := (loads_of_one_block 4294967295 []).1
  rw [List.append_nil] at h
  have hc : (process_records 1 2 512 (init_cache 1 2) (fun _ => 0)
      (List.replicate 4294967296 ⟨"load", 0, 4, []⟩)).cache = [⟨0, 1, 0⟩, ⟨0, 0, 0⟩] := h
  rw [hc]
  decide

/-- C18, at the failing input: after 2147483648 loads of `0x0` the counter
of the invalid way 1 has overflowed to `INT_MIN`; `find_least_recently_used`
then returns way 0, which is valid and holds the block just used, although
way 1 is still invalid; the missing load of `0x200` that follows replaces
way 0 and leaves way 1 invalid. -/
theorem victim_valid_after_overflow :
    (process_records 1 2 512 (init_cache 1 2) (fun _ => 0)
        (List.replicate 2147483648 ⟨"load", 0, 4, []⟩)).cache
      = [⟨0, 1, 0⟩, ⟨0, 0, -2147483648⟩] ∧
    (line_at (process_records 1 2 512 (init_cache 1 2) (fun _ => 0)
        (List.replicate 2147483648 ⟨"load", 0, 4, []⟩)).cache (0 * 2 + 1)).valid = 0 ∧
    find_least_recently_used (process_records 1 2 512 (init_cache 1 2) (fun _ => 0)
        (List.replicate 2147483648 ⟨"load", 0, 4, []⟩)).cache 0 2 = 0 * 2 + 0 ∧
    (line_at (process_records 1 2 512 (init_cache 1 2) (fun _ => 0)
        (List.replicate 2147483648 ⟨"load", 0, 4, []⟩)).cache (0 * 2 + 0)).valid ≠ 0 ∧
    (access_cache 512 "load" 4 [] (process_records 1 2 512 (init_cache 1 2) (fun _ => 0)
        (List.replicate 2147483648 ⟨"load", 0, 4, []⟩)).cache (fun _ => 0) 1 2 512).report
      = Report.load false (some [0, 0, 0, 0]) ∧
    (access_cache 512 "load" 4 [] (process_records 1 2 512 (init_cache 1 2) (fun _ => 0)
        (List.replicate 2147483648 ⟨"load", 0, 4, []⟩)).cache (fun _ => 0) 1 2 512).cache
      = [⟨1, 1, 0⟩, ⟨0, 0, -2147483647⟩] := by
  have h := (loads_of_one_block 2147483647 []).1
  rw [List.append_nil] at h
  have hc : (process_records 1 2 512 (init_cache 1 2) (fun _ => 0)
      (List.replicate 2147483648 ⟨"load", 0, 4, []⟩)).cache
        = [⟨0, 1, 0⟩, ⟨0, 0, -2147483648⟩] := h
  rw [hc]
  decide

/-- C19, at the failing input: with 2 ways, 2147483648 loads of `0x0`
(block 0), one load of `0x200` (block 1, the only other block referred to)
and a load of `0x0` again.  The load of block 1 replaces the valid way 0,
because the counter of the invalid way 1 has overflowed to `INT_MIN`, and
the last load of block 0 is reported as a miss (it replaces way 0 once
more; way 1 is still invalid at the end). -/
theorem reload_misses_after_overflow :
    (process_records 1 2 512 (init_cache 1 2) (fun _ => 0)
        (List.replicate 2147483648 ⟨"load", 0, 4, []⟩
          ++ [⟨"load", 512, 4, []⟩, ⟨"load", 0, 4, []⟩])).reports.getLast?
      = some (Report.load false (some [0, 0, 0, 0])) ∧
    (process_records 1 2 512 (init_cache 1 2) (fun _ => 0)
        (List.replicate 2147483648 ⟨"load", 0, 4, []⟩
          ++ [⟨"load", 512, 4, []⟩, ⟨"load", 0, 4, []⟩])).cache
      = [⟨0, 1, 0⟩, ⟨0, 0, -2147483646⟩] := by
  obtain ⟨h1, h2⟩ := loads_of_one_block 2147483647 [⟨"load", 512, 4, []⟩, ⟨"load", 0, 4, []⟩]
  have hrc : (process_records 1 2 512
      [⟨0, 1, 0⟩, ⟨0, 0, int32_wrap (1 + (2147483647 : Nat))⟩]
      (fun _ => 0) [⟨"load", 512, 4, []⟩, ⟨"load", 0, 4, []⟩]).cache
        = [⟨0, 1, 0⟩, ⟨0, 0, -2147483646⟩] := rfl
  have hrr : (process_records 1 2 512
      [⟨0, 1, 0⟩, ⟨0, 0, int32_wrap (1 + (2147483647 : Nat))⟩]
      (fun _ => 0) [⟨"load", 512, 4, []⟩, ⟨"load", 0, 4, []⟩]).reports
        = [Report.load false (some [0, 0, 0, 0]), Report.load false (some [0, 0, 0, 0])] := rfl
  rw [hrc] at h1
  rw [hrr, ← List.cons_append] at h2
  constructor
  · have h3 : (process_records 1 2 512 (init_cache 1 2) (fun _ => 0)
        (List.replicate 2147483648 ⟨"load", 0, 4, []⟩
          ++ [⟨"load", 512, 4, []⟩, ⟨"load", 0, 4, []⟩])).reports
          = (Report.load false (some [0, 0, 0, 0]) ::
              List.replicate 2147483647 (Report.load true (some [0, 0, 0, 0]))) ++
            [Report.load false (some [0, 0, 0, 0]), Report.load false (some [0, 0, 0, 0])] := h2
    rw [h3, List.getLast?_append]
    rfl
  · exact h1

end CacheSim
